import Mathlib

/-!
Verification of the red-black tree `RBTree` from `include/rbtree.h`
(the per-tree-sentinel variant).

The C++ code is a pointer machine: nodes hold `parent`, `left`, `right`
pointers, a color, and a key/value payload; one sentinel node per tree
stands for every empty subtree and for the parent of the root.  We embed
it shallowly as exactly that: a heap mapping addresses (`Nat`, with `0`
playing `nullptr`) to node records, and every tree operation is a
function on the heap transliterated statement by statement from the
source.  Loops carry explicit fuel; dereferencing null or freed memory,
or exhausting fuel, yields `none`.  The sentinel is an ordinary mutable
heap cell, so the source's writes through sentinel pointers (including
`extractNode`'s `replacement->color = node->color` when the replacement
is the sentinel) are reproduced faithfully.
-/

namespace RBT

/-- Color of a node, `detail::Color`. -/
inductive Color where
  | red
  | black
deriving DecidableEq

/-- One heap cell: `detail::NodeBase` plus the `Node<K,T>` payload.
The sentinel is allocated with node-sized storage in the source
(`createNil` allocates through the `Node` allocator) and its payload is
never initialised; we store junk zeroes there. -/
structure NodeRec where
  parent : Nat
  left : Nat
  right : Nat
  color : Color
  key : Int
  val : Int
deriving DecidableEq

/-- The heap: address to live cell; `none` is unallocated or freed memory. -/
def Heap : Type := Nat → Option NodeRec

/-- State of one `RBTree` object: its heap of owned cells, a bump
allocation pointer, the `m_data.nil` and `m_data.root` pointers of
`detail::TreeBase`, `m_size`, and the identity of its allocator
(`counting_allocator` equality compares the counter pointers, so an
allocator is just an identity tag here). -/
structure TreeState where
  heap : Heap
  nextAddr : Nat
  nil : Nat
  root : Nat
  size : Nat
  allocId : Nat

/-- Global allocation counters of a tracking allocator
(`testing::counting_allocator`). -/
structure Counters where
  allocs : Nat
  deallocs : Nat
deriving DecidableEq

/-- Read a cell; dereferencing `nullptr` (address 0) or freed memory faults. -/
def readN (h : Heap) (a : Nat) : Option NodeRec :=
  if a = 0 then none else h a

/-- Write a cell (the caller has checked it is live). -/
def writeN (h : Heap) (a : Nat) (n : NodeRec) : Heap :=
  fun x => if x = a then some n else h x

/-- Store to `a->parent`. -/
def setParent (s : TreeState) (a p : Nat) : Option TreeState := do
  let n ← readN s.heap a
  pure { s with heap := writeN s.heap a { n with parent := p } }

/-- Store to `a->left`. -/
def setLeft (s : TreeState) (a l : Nat) : Option TreeState := do
  let n ← readN s.heap a
  pure { s with heap := writeN s.heap a { n with left := l } }

/-- Store to `a->right`. -/
def setRight (s : TreeState) (a r : Nat) : Option TreeState := do
  let n ← readN s.heap a
  pure { s with heap := writeN s.heap a { n with right := r } }

/-- Store to `a->color`. -/
def setColor (s : TreeState) (a : Nat) (c : Color) : Option TreeState := do
  let n ← readN s.heap a
  pure { s with heap := writeN s.heap a { n with color := c } }

/-- Read `a->color`. -/
def colorAt (s : TreeState) (a : Nat) : Option Color := do
  let n ← readN s.heap a
  pure n.color

/-- `detail::isLeftChild`: `node == node->parent->left`. -/
def isLeftChild (s : TreeState) (node : Nat) : Option Bool := do
  let n ← readN s.heap node
  let p ← readN s.heap n.parent
  pure (decide (p.left = node))

/-- `detail::isRightChild`: `node == node->parent->right`. -/
def isRightChild (s : TreeState) (node : Nat) : Option Bool := do
  let n ← readN s.heap node
  let p ← readN s.heap n.parent
  pure (decide (p.right = node))

/-- `detail::linkTo(tree, node) = target`: assignment through the link
reference, choosing the parent's matching child slot and falling back to
`tree.root`. -/
def linkToSet (s : TreeState) (node target : Nat) : Option TreeState := do
  let l ← isLeftChild s node
  if l then do
    let n ← readN s.heap node
    let p ← readN s.heap n.parent
    pure { s with heap := writeN s.heap n.parent { p with left := target } }
  else do
    let r ← isRightChild s node
    if r then do
      let n ← readN s.heap node
      let p ← readN s.heap n.parent
      pure { s with heap := writeN s.heap n.parent { p with right := target } }
    else
      pure { s with root := target }

/-- `detail::allLeft`: `while (node->left != node->left->left) node = node->left`.
The loop detects the sentinel by its self-looping `left` pointer. -/
def allLeft (s : TreeState) : Nat → Nat → Option Nat
  | 0, _ => none
  | fuel + 1, node => do
    let n ← readN s.heap node
    let l ← readN s.heap n.left
    if n.left = l.left then pure node else allLeft s fuel n.left

/-- Parent-climbing phase of `detail::successor`:
`while (node != tree.nil) { parent = node->parent; if (node == parent->left) return parent; node = parent; } return nullptr`. -/
def succClimb (s : TreeState) : Nat → Nat → Option Nat
  | 0, _ => none
  | fuel + 1, node =>
    if node = s.nil then pure 0
    else do
      let n ← readN s.heap node
      let p ← readN s.heap n.parent
      if p.left = node then pure n.parent else succClimb s fuel n.parent

/-- `detail::successor(tree, node)`: in-order successor, `0` meaning the
`nullptr` past-the-end marker. -/
def successor (s : TreeState) (fuel node : Nat) : Option Nat :=
  if node = s.nil then allLeft s fuel s.root
  else do
    let n ← readN s.heap node
    if n.right ≠ s.nil then allLeft s fuel n.right
    else succClimb s fuel node

/-- `detail::leftRotate(tree, x)`, transliterated statement by statement;
every statement re-reads the current heap so aliasing behaves as in the
source. -/
def leftRotate (s : TreeState) (x : Nat) : Option TreeState := do
  let xn ← readN s.heap x
  let y := xn.right
  let yn ← readN s.heap y
  let s ← setRight s x yn.left
  let xr ← readN s.heap x
  let s ← setParent s xr.right x
  let s ← setLeft s y x
  let xp ← readN s.heap x
  let s ← setParent s y xp.parent
  let s ← linkToSet s x y
  setParent s x y

/-- `detail::rightRotate(tree, y)`, mirror of `leftRotate`. -/
def rightRotate (s : TreeState) (y : Nat) : Option TreeState := do
  let yn ← readN s.heap y
  let x := yn.left
  let xn ← readN s.heap x
  let s ← setLeft s y xn.right
  let yl ← readN s.heap y
  let s ← setParent s yl.left y
  let s ← setRight s x y
  let yp ← readN s.heap y
  let s ← setParent s x yp.parent
  let s ← linkToSet s y x
  setParent s y x

/-- `detail::insertFixup(tree, node)`: the recolor-or-rotate loop; each
recursive call is one more test of the loop condition
`parent = node->parent, parent->color == Color::Red`. -/
def insertFixup (s : TreeState) : Nat → Nat → Option TreeState
  | 0, _ => none
  | fuel + 1, node => do
    let n ← readN s.heap node
    let parentA := n.parent
    let pn ← readN s.heap parentA
    if pn.color ≠ Color.red then do
      let s ← setColor s s.root Color.black
      pure s
    else do
      let pl ← isLeftChild s parentA
      let gpA := pn.parent
      let gp ← readN s.heap gpA
      let uncleA := if pl then gp.right else gp.left
      let un ← readN s.heap uncleA
      if un.color = Color.red then do
        let s ← setColor s parentA Color.black
        let s ← setColor s uncleA Color.black
        let s ← setColor s gpA Color.red
        insertFixup s fuel gpA
      else
        if pl then do
          let nr ← isRightChild s node
          let (s, node, parentA) ←
            if nr then do
              let node := parentA
              let s ← leftRotate s node
              let nn ← readN s.heap node
              pure (s, node, nn.parent)
            else pure (s, node, parentA)
          let s ← setColor s parentA Color.black
          let pn2 ← readN s.heap parentA
          let s ← setColor s pn2.parent Color.red
          let pn3 ← readN s.heap parentA
          let s ← rightRotate s pn3.parent
          insertFixup s fuel node
        else do
          let nl ← isLeftChild s node
          let (s, node, parentA) ←
            if nl then do
              let node := parentA
              let s ← rightRotate s node
              let nn ← readN s.heap node
              pure (s, node, nn.parent)
            else pure (s, node, parentA)
          let s ← setColor s parentA Color.black
          let pn2 ← readN s.heap parentA
          let s ← setColor s pn2.parent Color.red
          let pn3 ← readN s.heap parentA
          let s ← leftRotate s pn3.parent
          insertFixup s fuel node

/-- `detail::extractFixup(tree, node)`: the deletion repair loop; each
recursive call is one more test of
`parent = node->parent, node != tree.root && node->color == Color::Black`. -/
def extractFixup (s : TreeState) : Nat → Nat → Option TreeState
  | 0, _ => none
  | fuel + 1, node => do
    let n ← readN s.heap node
    let parentA := n.parent
    if node = s.root ∨ n.color ≠ Color.black then do
      let s ← setColor s node Color.black
      pure s
    else do
      let nlft ← isLeftChild s node
      if nlft then do
        let pn ← readN s.heap parentA
        let sibA := pn.right
        let (s, sibA) ← do
          let sib ← readN s.heap sibA
          if sib.color = Color.red then do
            let s ← setColor s sibA Color.black
            let s ← setColor s parentA Color.red
            let s ← leftRotate s parentA
            let pn2 ← readN s.heap parentA
            pure (s, pn2.right)
          else pure (s, sibA)
        let sib ← readN s.heap sibA
        let sl ← readN s.heap sib.left
        let sr ← readN s.heap sib.right
        if sl.color = Color.black ∧ sr.color = Color.black then do
          let s ← setColor s sibA Color.red
          extractFixup s fuel parentA
        else do
          let (s, sibA) ←
            if sr.color = Color.black then do
              let s ← setColor s sib.left Color.black
              let s ← setColor s sibA Color.red
              let s ← rightRotate s sibA
              let pn2 ← readN s.heap parentA
              pure (s, pn2.right)
            else pure (s, sibA)
          let pc ← colorAt s parentA
          let s ← setColor s sibA pc
          let s ← setColor s parentA Color.black
          let sib2 ← readN s.heap sibA
          let s ← setColor s sib2.right Color.black
          let s ← leftRotate s parentA
          extractFixup s fuel s.root
      else do
        let pn ← readN s.heap parentA
        let sibA := pn.left
        let (s, sibA) ← do
          let sib ← readN s.heap sibA
          if sib.color = Color.red then do
            let s ← setColor s sibA Color.black
            let s ← setColor s parentA Color.red
            let s ← rightRotate s parentA
            let pn2 ← readN s.heap parentA
            pure (s, pn2.left)
          else pure (s, sibA)
        let sib ← readN s.heap sibA
        let sr ← readN s.heap sib.right
        let sl ← readN s.heap sib.left
        if sr.color = Color.black ∧ sl.color = Color.black then do
          let s ← setColor s sibA Color.red
          extractFixup s fuel parentA
        else do
          let (s, sibA) ←
            if sl.color = Color.black then do
              let s ← setColor s sib.right Color.black
              let s ← setColor s sibA Color.red
              let s ← leftRotate s sibA
              let pn2 ← readN s.heap parentA
              pure (s, pn2.left)
            else pure (s, sibA)
          let pc ← colorAt s parentA
          let s ← setColor s sibA pc
          let s ← setColor s parentA Color.black
          let sib2 ← readN s.heap sibA
          let s ← setColor s sib2.left Color.black
          let s ← rightRotate s parentA
          extractFixup s fuel s.root

/-- `detail::extractNode(tree, node)`: unlink `node` from the tree,
choosing a replacement and possibly running `extractFixup`. -/
def extractNode (s : TreeState) (fuel node : Nat) : Option TreeState := do
  let n ← readN s.heap node
  let (s, replacement, fixupRoot) ←
    if n.left ≠ s.nil ∧ n.right ≠ s.nil then do
      let replacement ← allLeft s fuel n.right
      let s ←
        if replacement = n.right then do
          let rn ← readN s.heap replacement
          let s ← setRight s node rn.right
          let nn ← readN s.heap node
          setParent s nn.right node
        else do
          let rn ← readN s.heap replacement
          let s ← setLeft s rn.parent rn.right
          let pn ← readN s.heap rn.parent
          setParent s pn.left rn.parent
      let rn2 ← readN s.heap replacement
      let fixupRoot := if rn2.color = Color.black then rn2.right else 0
      let nn ← readN s.heap node
      let s ← setLeft s replacement nn.left
      let nn2 ← readN s.heap node
      let s ← setRight s replacement nn2.right
      let rn3 ← readN s.heap replacement
      let s ← setParent s rn3.left replacement
      let rn4 ← readN s.heap replacement
      let s ← setParent s rn4.right replacement
      pure (s, replacement, fixupRoot)
    else if n.left ≠ s.nil then
      pure (s, n.left, if n.color = Color.black then n.left else 0)
    else if n.right ≠ s.nil then
      pure (s, n.right, if n.color = Color.black then n.right else 0)
    else
      pure (s, s.nil, if n.color = Color.black then s.nil else 0)
  let s ← linkToSet s node replacement
  let nn ← readN s.heap node
  let s ← setParent s replacement nn.parent
  let nn2 ← readN s.heap node
  let s ← setColor s replacement nn2.color
  if fixupRoot ≠ 0 then extractFixup s fuel fixupRoot else pure s

/-- `detail::findNode(tree, key, cmp)`: iterative descent stopping at the
matching node, or at the last visited node (the insertion anchor), or at
the sentinel for an empty tree. -/
def findNodeLoop (s : TreeState) (cmp : Int → Int → Bool) (key : Int) :
    Nat → Nat → Nat → Option Nat
  | 0, _, _ => none
  | fuel + 1, node, next =>
    if next = s.nil then pure node
    else do
      let n ← readN s.heap next
      if cmp key n.key then findNodeLoop s cmp key fuel next n.left
      else if cmp n.key key then findNodeLoop s cmp key fuel next n.right
      else findNodeLoop s cmp key fuel next s.nil

/-- Entry point of `detail::findNode`: `node = tree.root; next = node;`. -/
def findNode (s : TreeState) (cmp : Int → Int → Bool) (fuel : Nat) (key : Int) :
    Option Nat :=
  findNodeLoop s cmp key fuel s.root s.root

/-- Default fuel for one tree: strictly more than the number of cells the
tree has ever allocated, which bounds every path and iteration in a
well-formed tree. -/
def fuelOf (s : TreeState) : Nat :=
  2 * s.nextAddr + 2

/-- `RBTree::buildNode`: allocate and construct a node (fields default to
null parent and `Color::Red`), then `node->left = node->right = m_data.nil`. -/
def buildNode (c : Counters) (s : TreeState) (k v : Int) :
    Counters × TreeState × Nat :=
  let a := s.nextAddr
  let n : NodeRec :=
    { parent := 0, left := s.nil, right := s.nil, color := Color.red
      key := k, val := v }
  ({ c with allocs := c.allocs + 1 },
   { s with heap := writeN s.heap a n, nextAddr := s.nextAddr + 1 },
   a)

/-- `RBTree::destroyNode`: destroy and deallocate. -/
def destroyNode (c : Counters) (s : TreeState) (a : Nat) :
    Counters × TreeState :=
  ({ c with deallocs := c.deallocs + 1 },
   { s with heap := fun x => if x = a then none else s.heap x })

/-- `RBTreeData::createNil` followed by `m_data.root = ...` as in every
`RBTree` constructor: allocate the sentinel, make its children loop to
itself, color it black, and let the root point at it.  Its `parent` is
left as the `NodeBase` default `nullptr`, and its payload is never
initialised. -/
def newTree (c : Counters) (allocId : Nat) : Counters × TreeState :=
  let nilRec : NodeRec :=
    { parent := 0, left := 1, right := 1, color := Color.black
      key := 0, val := 0 }
  ({ c with allocs := c.allocs + 1 },
   { heap := fun a => if a = 1 then some nilRec else none
     nextAddr := 2, nil := 1, root := 1, size := 0, allocId := allocId })

/-- `RBTree::insert(value_type &&)`: returns the new state, the address
the returned iterator holds, and the inserted flag. -/
def insert (cmp : Int → Int → Bool) (c : Counters) (s : TreeState)
    (k v : Int) : Option (Counters × TreeState × Nat × Bool) := do
  let node ← findNode s cmp (fuelOf s) k
  let dup ←
    if node = s.nil then pure false
    else do
      let n ← readN s.heap node
      pure (decide (k = n.key))
  if dup then pure (c, s, node, false)
  else do
    let (c, s, newA) := buildNode c s k v
    let s ← setParent s newA node
    let s ←
      if node = s.nil then pure { s with root := newA }
      else do
        let n ← readN s.heap node
        if cmp k n.key then setLeft s node newA else setRight s node newA
    let s ← insertFixup s (fuelOf s) newA
    pure (c, { s with size := s.size + 1 }, newA, true)

/-- `RBTree::operator[]`: insert-or-fetch, returning the address whose
`value.second` the reference aliases plus the new state. -/
def index (cmp : Int → Int → Bool) (c : Counters) (s : TreeState)
    (k : Int) : Option (Counters × TreeState × Nat) := do
  let node ← findNode s cmp (fuelOf s) k
  let hit ←
    if node = s.nil then pure false
    else do
      let n ← readN s.heap node
      pure (decide (k = n.key))
  if hit then pure (c, s, node)
  else do
    let (c, s, newA) := buildNode c s k 0
    let s ← setParent s newA node
    let s ←
      if node = s.nil then pure { s with root := newA }
      else do
        let n ← readN s.heap node
        if cmp k n.key then setLeft s node newA else setRight s node newA
    let s ← insertFixup s (fuelOf s) newA
    pure (c, { s with size := s.size + 1 }, newA)

/-- Outcome of `RBTree::at`: the error is `throw std::out_of_range`
(KeyNotFound).  `at` is a const member: it performs no store, which the
signature makes plain by returning no state. -/
def atKey (cmp : Int → Int → Bool) (s : TreeState) (k : Int) :
    Option (Except Unit Int) := do
  let node ← findNode s cmp (fuelOf s) k
  if node ≠ s.nil then do
    let n ← readN s.heap node
    if k = n.key then pure (Except.ok n.val)
    else pure (Except.error ())
  else pure (Except.error ())

/-- `RBTree::find`: resulting iterator's node pointer, `0` being a
past-the-end iterator (both the default-constructed iterator returned for
an empty tree and `const_iterator(m_data, nullptr)` hold `nullptr`). -/
def find (cmp : Int → Int → Bool) (s : TreeState) (k : Int) : Option Nat :=
  if s.root = s.nil then pure 0
  else do
    let node ← findNode s cmp (fuelOf s) k
    if node = s.nil then pure 0
    else do
      let n ← readN s.heap node
      if k ≠ n.key then pure 0 else pure node

/-- `RBTree::erase(iterator)`: `extractNode`, `destroyNode`, `m_size -= 1`. -/
def eraseIter (c : Counters) (s : TreeState) (node : Nat) :
    Option (Counters × TreeState) := do
  let s ← extractNode s (fuelOf s) node
  let (c, s) := destroyNode c s node
  pure (c, { s with size := s.size - 1 })

/-- `RBTree::erase(const K &)`: find, and erase only when the iterator is
not `end()`. -/
def eraseKey (cmp : Int → Int → Bool) (c : Counters) (s : TreeState)
    (k : Int) : Option (Counters × TreeState) := do
  let it ← find cmp s k
  if it ≠ 0 then eraseIter c s it else pure (c, s)

/-- `RBTree::begin`: `allLeft(m_data.root)`. -/
def begin (s : TreeState) : Option Nat :=
  allLeft s (fuelOf s) s.root

/-- The node pointer held by `RBTree::end()` iterators: `nullptr`. -/
def endAddr : Nat := 0

/-- `RBTree::size`. -/
def size (s : TreeState) : Nat := s.size

/-- `RBTree::empty`. -/
def empty (s : TreeState) : Bool := s.size = 0

/-- Walk the iterator range `[node, end())` by repeated `operator++`
(`successor`), collecting the key/value pairs it visits. -/
def iterList (s : TreeState) : Nat → Nat → Option (List (Int × Int))
  | 0, _ => none
  | fuel + 1, node =>
    if node = 0 then pure []
    else do
      let n ← readN s.heap node
      let next ← successor s (fuelOf s) node
      let rest ← iterList s fuel next
      pure ((n.key, n.val) :: rest)

/-- Iterate the whole container, `begin()` to `end()`. -/
def toList (s : TreeState) : Option (List (Int × Int)) := do
  let b ← begin s
  iterList s (s.size + 1) b

/-- The loop of `std::equal(lhs.cbegin(), lhs.cend(), rhs.cbegin())` as
instantiated by `operator==`: advance both iterators until the left one
reaches `end()`, comparing `std::pair` values. -/
def stdEqual (s1 s2 : TreeState) : Nat → Nat → Nat → Option Bool
  | 0, _, _ => none
  | fuel + 1, a1, a2 =>
    if a1 = 0 then pure true
    else do
      let n1 ← readN s1.heap a1
      let n2 ← readN s2.heap a2
      if n1.key = n2.key ∧ n1.val = n2.val then do
        let a1' ← successor s1 (fuelOf s1) a1
        let a2' ← successor s2 (fuelOf s2) a2
        stdEqual s1 s2 fuel a1' a2'
      else pure false

/-- `operator==(lhs, rhs)`: allocator equality, then size equality, then
element-wise `std::equal` over the iteration — with C++'s short-circuit
`&&`, so iteration happens only when allocators and sizes agree. -/
def treeEq (s1 s2 : TreeState) : Option Bool :=
  if s1.allocId ≠ s2.allocId then pure false
  else if s1.size ≠ s2.size then pure false
  else do
    let b1 ← begin s1
    let b2 ← begin s2
    stdEqual s1 s2 (s1.size + 1) b1 b2

/-- `RBTree::RBTree(RBTree &&)`: the new object's `m_data` starts with
default (null) `TreeBase` pointers, then `nil`, `root` and `m_size` are
swapped; the comparator and allocator are move-transferred.  Returns
(destination, source-after-move). -/
def moveConstruct (s : TreeState) : TreeState × TreeState :=
  (s,
   { heap := fun _ => none, nextAddr := 1, nil := 0, root := 0, size := 0
     allocId := s.allocId })

/-- `RBTree::RBTree(const RBTree &)`: fresh sentinel, then
`insert(other.begin(), other.end())`, element by element in iteration
order.  The allocator is obtained by
`select_on_container_copy_construction`, which for the tracking allocator
copies it, keeping the same counters and identity. -/
def copyConstruct (cmp : Int → Int → Bool) (c : Counters) (s : TreeState) :
    Option (Counters × TreeState) := do
  let l ← toList s
  let (c, t) := newTree c s.allocId
  l.foldlM (fun (ct : Counters × TreeState) kv => do
      let r ← insert cmp ct.1 ct.2 kv.1 kv.2
      pure (r.1, r.2.1))
    (c, t)

/-- The leaf-destruction pass of `RBTree::clear`:
`do { leaf = node; node = node->parent; destroyNode(leaf); } while (leaf == node->right);`. -/
def clearBurst (c : Counters) (s : TreeState) :
    Nat → Nat → Option (Counters × TreeState × Nat)
  | 0, _ => none
  | fuel + 1, node => do
    let n ← readN s.heap node
    let leaf := node
    let node := n.parent
    let (c, s) := destroyNode c s leaf
    let pn ← readN s.heap node
    if pn.right = leaf then clearBurst c s fuel node
    else pure (c, s, node)

/-- The `while (node->right != m_data.nil) { node = allLeft(node->right); }`
descent of `RBTree::clear`. -/
def clearDescend (s : TreeState) : Nat → Nat → Option Nat
  | 0, _ => none
  | fuel + 1, node => do
    let n ← readN s.heap node
    if n.right ≠ s.nil then do
      let d ← allLeft s (fuelOf s) n.right
      clearDescend s fuel d
    else pure node

/-- Outer loop of `RBTree::clear`. -/
def clearLoop (cmpFuel : Nat) (c : Counters) (s : TreeState) :
    Nat → Nat → Option (Counters × TreeState)
  | 0, _ => none
  | fuel + 1, node =>
    if node = s.nil then
      pure (c, { s with root := s.nil, size := 0 })
    else do
      let node ← clearDescend s cmpFuel node
      let (c, s, node) ← clearBurst c s cmpFuel node
      clearLoop cmpFuel c s fuel node

/-- `RBTree::clear`. -/
def clear (c : Counters) (s : TreeState) : Option (Counters × TreeState) := do
  let b ← allLeft s (fuelOf s) s.root
  clearLoop (fuelOf s) c s (s.size + 1) b

/-- `RBTree::~RBTree`: `if (m_data.root) clear(); m_data.destroyNil();`,
where `destroyNil` deallocates the sentinel if it is not null.  Only the
counter effects remain observable. -/
def destructor (c : Counters) (s : TreeState) : Option Counters := do
  let (c, s) ←
    if s.root ≠ 0 then clear c s else pure (c, s)
  if s.nil ≠ 0 then
    pure { c with deallocs := c.deallocs + 1 }
  else pure c

/-- The `std::less<K>` comparator for `K = int`. -/
def ltInt (a b : Int) : Bool := a < b

/-- Fresh counters. -/
def counters0 : Counters := { allocs := 0, deallocs := 0 }

/-- Full-tree recursive reading of the in-order key/value sequence,
recursing through child pointers (the checker of spec section 8). -/
def inorderChk (s : TreeState) : Nat → Nat → Option (List (Int × Int))
  | 0, _ => none
  | fuel + 1, a =>
    if a = s.nil then pure []
    else do
      let n ← readN s.heap a
      let L ← inorderChk s fuel n.left
      let R ← inorderChk s fuel n.right
      pure (L ++ (n.key, n.val) :: R)

/-- Full-tree recursive checker for invariant I2: no red node has a red
parent.  The color of the parent is passed down. -/
def noRedRed (s : TreeState) : Nat → Nat → Color → Option Bool
  | 0, _, _ => none
  | fuel + 1, a, pc =>
    if a = s.nil then pure true
    else do
      let n ← readN s.heap a
      if pc = Color.red ∧ n.color = Color.red then pure false
      else do
        let L ← noRedRed s fuel n.left n.color
        let R ← noRedRed s fuel n.right n.color
        pure (L && R)

/-- Full-tree recursive checker for invariant I3: inner `some h` is the
common black count of every path from this node down to the sentinel,
inner `none` reports a mismatch. -/
def blackHeights (s : TreeState) : Nat → Nat → Option (Option Nat)
  | 0, _ => none
  | fuel + 1, a =>
    if a = s.nil then pure (some 0)
    else do
      let n ← readN s.heap a
      let L ← blackHeights s fuel n.left
      let R ← blackHeights s fuel n.right
      pure (match L, R with
        | some l, some r =>
          if l = r then some (l + (if n.color = Color.black then 1 else 0))
          else none
        | _, _ => none)

/-- Keys strictly increasing under the comparator, invariant I1 at the
iteration level. -/
def strictIncr (cmp : Int → Int → Bool) : List Int → Bool
  | [] => true
  | [_] => true
  | a :: b :: rest => cmp a b && strictIncr cmp (b :: rest)

/-- A public mutating operation: one `insert(pair)` or one `erase(key)`. -/
inductive Op where
  | ins (k v : Int)
  | ers (k : Int)

/-- Execute one public operation. -/
def runOp (cmp : Int → Int → Bool) (c : Counters) (s : TreeState) :
    Op → Option (Counters × TreeState)
  | .ins k v => do
    let r ← insert cmp c s k v
    pure (r.1, r.2.1)
  | .ers k => eraseKey cmp c s k

/-- Execute a sequence of public operations. -/
def runOps (cmp : Int → Int → Bool) (c : Counters) (s : TreeState) :
    List Op → Option (Counters × TreeState)
  | [] => pure (c, s)
  | op :: rest => do
    let (c, s) ← runOp cmp c s op
    runOps cmp c s rest

/-- A freshly default-constructed tree. -/
def tree0 : TreeState := (newTree counters0 0).2

/-- Operation sequence for claim C1: insert 2, 1, 3, erase 3, insert 0,
all under the default `std::less<int>` comparator. -/
def opsC1 : List Op := [.ins 2 2, .ins 1 1, .ins 3 3, .ers 3, .ins 0 0]

/-- Observations after `opsC1`: the in-order key sequence, the I2
checker, and the I3 checker verdict. -/
def obsC1 : Option (List Int × Bool × Option Nat) := do
  let p ← runOps ltInt counters0 tree0 opsC1
  let s := p.2
  let io ← inorderChk s 20 s.root
  let rr ← noRedRed s 20 s.root Color.black
  let bh ← blackHeights s 20 s.root
  pure (io.map Prod.fst, rr, bh)

/-- The sentinel's color after insert 2, 1, 3 and erase 3: `extractNode`'s
`replacement->color = node->color` writes the erased red leaf's color
onto the sentinel, and nothing restores it. -/
def nilColorAfterRedLeafErase : Option Color := do
  let p ← runOps ltInt counters0 tree0 [.ins 2 2, .ins 1 1, .ins 3 3, .ers 3]
  colorAt p.2 p.2.nil

/-- The moved-from tree of claim C3: insert one element, then
move-construct from the tree and look at the source object. -/
def srcC3 : Option TreeState := do
  let p ← runOps ltInt counters0 tree0 [.ins 1 10]
  pure (moveConstruct p.2).2

/-- Allocation count after constructing a tree with a tracking allocator
and inserting 4 elements (claim C4, first phase). -/
def allocsAfterInsert4 : Option Nat := do
  let (c, a0) := newTree counters0 7
  let p ← runOps ltInt c a0 [.ins 1 1, .ins 2 2, .ins 3 3, .ins 4 4]
  pure p.1.allocs

/-- Full allocator scenario of claim C4: construct with a tracking
allocator and insert 4 elements, copy-construct, move-construct from the
copy, destroy all three trees.  Records the allocation count after each
phase and the final allocation/deallocation totals. -/
def scenarioC4 : Option (Nat × Nat × Nat × Nat × Nat) := do
  let (c, a0) := newTree counters0 7
  let p ← runOps ltInt c a0 [.ins 1 1, .ins 2 2, .ins 3 3, .ins 4 4]
  let (c2, a) := p
  let q ← copyConstruct ltInt c2 a
  let (c3, b) := q
  let (bc, bsrc) := moveConstruct b
  let c4 ← destructor c3 a
  let c5 ← destructor c4 bsrc
  let c6 ← destructor c5 bc
  pure (c2.allocs, c3.allocs, bc.allocId, c6.allocs, c6.deallocs)

/-- A comparator whose equivalence relation (equal integer halves) is
coarser than `operator==`, for claim C10. -/
def cmpDiv2 (a b : Int) : Bool := a / 2 < b / 2

/-- Claim C10 scenario: under `cmpDiv2`, insert keys 2 then 3 (comparator
equivalent, `==`-distinct) into an empty tree and observe both inserted
flags, the size, the in-order contents, `at(3)`, `at(2)` and `find(3)`. -/
def obsC10 : Option (Bool × Bool × Nat × List (Int × Int)) := do
  let r1 ← insert cmpDiv2 counters0 tree0 2 100
  let r2 ← insert cmpDiv2 r1.1 r1.2.1 3 200
  let s := r2.2.1
  let io ← inorderChk s 20 s.root
  pure (r1.2.2.2, r2.2.2.2, RBT.size s, io)

/-- The state of the claim C10 scenario after both inserts. -/
def stateC10 : Option TreeState := do
  let r1 ← insert cmpDiv2 counters0 tree0 2 100
  let r2 ← insert cmpDiv2 r1.1 r1.2.1 3 200
  pure r2.2.1

/-- Reading of an `at` outcome: `some v` when it returns a value, `none`
when it fails with KeyNotFound. -/
def atValue (e : Except Unit Int) : Option Int :=
  match e with
  | .ok v => some v
  | .error _ => none

/-- Two freshly constructed empty trees sharing one tracking allocator
(equal allocator identity), for claim C8. -/
def emptyA : TreeState := (newTree counters0 7).2

/-- Second empty tree with the same allocator identity. -/
def emptyB : TreeState := (newTree counters0 7).2

/-- Address-decorated abstraction of the node graph: the shape, colors
and contents of the tree together with the heap address of every node.
`dnil` stands for a child pointer equal to the sentinel. -/
inductive DTree where
  | dnil
  | dnode (a : Nat) (c : Color) (l : DTree) (k : Int) (v : Int) (r : DTree)
deriving DecidableEq

/-- Address of a subtree's root as stored in its parent's child pointer:
the sentinel's address for an empty subtree. -/
def rootA (nilA : Nat) : DTree → Nat
  | .dnil => nilA
  | .dnode a _ _ _ _ _ => a

/-- Addresses of all nodes of the subtree. -/
def addrsD : DTree → List Nat
  | .dnil => []
  | .dnode a _ l _ _ r => a :: (addrsD l ++ addrsD r)

/-- In-order key/value contents. -/
def inorderD : DTree → List (Int × Int)
  | .dnil => []
  | .dnode _ _ l k v r => inorderD l ++ (k, v) :: inorderD r

/-- In-order keys. -/
def keysD (t : DTree) : List Int := (inorderD t).map Prod.fst

/-- Height of the subtree. -/
def depthD : DTree → Nat
  | .dnil => 0
  | .dnode _ _ l _ _ r => max (depthD l) (depthD r) + 1

/-- The heap faithfully stores the decorated tree at its root address:
each node's cell holds exactly the given parent address, child addresses,
color, key and value. -/
def realizes (s : TreeState) : Nat → DTree → Bool
  | _, .dnil => true
  | pa, .dnode a c l k v r =>
    decide (a ≠ 0) && decide (a ≠ s.nil) &&
    decide (s.heap a = some
      { parent := pa, left := rootA s.nil l, right := rootA s.nil r
        color := c, key := k, val := v }) &&
    realizes s a l && realizes s a r

/-- The sentinel cell is live with self-looping child pointers, as
`createNil` establishes and every well-formed operation maintains. -/
def nilOkB (s : TreeState) : Bool :=
  match s.heap s.nil with
  | some n => decide (n.left = s.nil) && decide (n.right = s.nil)
  | none => false

/-- The sentinel is black (invariant I4; `extractNode` can break this). -/
def nilBlackB (s : TreeState) : Bool :=
  match s.heap s.nil with
  | some n => decide (n.color = Color.black)
  | none => false

/-- Structural well-formedness of a tree state against a decorated tree:
live self-looping sentinel, root pointer and cells matching the tree,
distinct in-bounds addresses, bounded depth, and a size field equal to
the number of entries. -/
def wfB (s : TreeState) (t : DTree) : Bool :=
  decide (s.nil ≠ 0) && decide (s.nil < s.nextAddr) && nilOkB s &&
  decide (s.root = rootA s.nil t) && realizes s s.nil t &&
  decide ((addrsD t).Nodup) &&
  (addrsD t).all (fun a => decide (a < s.nextAddr)) &&
  decide (s.nil ∉ addrsD t) &&
  decide (depthD t + 2 ≤ s.nextAddr) &&
  decide (s.size = (inorderD t).length)

/-- Every key of the subtree satisfies the predicate. -/
def allKeysD (p : Int → Bool) : DTree → Bool
  | .dnil => true
  | .dnode _ _ l k _ r => p k && allKeysD p l && allKeysD p r

/-- Binary-search-tree order under the `std::less<int>` comparator
(invariant I1). -/
def bstB : DTree → Bool
  | .dnil => true
  | .dnode _ _ l k _ r =>
    allKeysD (fun x => ltInt x k) l && allKeysD (fun x => ltInt k x) r &&
    bstB l && bstB r

/-- Concrete witness state: the tree after inserting (1, 10) then (2, 20)
under `std::less<int>`. -/
def sW : TreeState :=
  ((runOps ltInt counters0 tree0 [.ins 1 10, .ins 2 20]).getD
    (counters0, tree0)).2

/-- Decorated tree matching `sW`: node 1 (value 10) black at address 2 is
the root, node 2 (value 20) red at address 3 its right child. -/
def tW : DTree :=
  .dnode 2 .black .dnil 1 10 (.dnode 3 .red .dnil 2 20 .dnil)

/-- The node at which `findNode`'s descent for `key` stops (address, key,
value), or `none` for an empty subtree: recurse on the comparator's
verdicts and keep the last visited node when a child is empty. -/
def stopD (k : Int) : DTree → Option (Nat × Int × Int)
  | .dnil => none
  | .dnode a _ l k0 v r =>
    if ltInt k k0 then
      match stopD k l with
      | none => some (a, k0, v)
      | some x => some x
    else if ltInt k0 k then
      match stopD k r with
      | none => some (a, k0, v)
      | some x => some x
    else some (a, k0, v)

/-- One-hole context (zipper) over `DTree`: the path from the root down
to a distinguished subtree, recording for every step the node passed
through and the sibling subtree.  It encodes exactly the information the
source's parent pointers provide. -/
inductive Ctx where
  | top
  | inL (a : Nat) (c : Color) (k v : Int) (r : DTree) (up : Ctx)
  | inR (a : Nat) (c : Color) (l : DTree) (k v : Int) (up : Ctx)
deriving DecidableEq

/-- Rebuild the whole tree from a context and the subtree in its hole. -/
def plugD : Ctx → DTree → DTree
  | .top, t => t
  | .inL a c k v r up, t => plugD up (.dnode a c t k v r)
  | .inR a c l k v up, t => plugD up (.dnode a c l k v t)

/-- Parent address of the hole: the sentinel at the top (the root's
parent pointer is the sentinel). -/
def holeParent (nilA : Nat) : Ctx → Nat
  | .top => nilA
  | .inL a _ _ _ _ _ => a
  | .inR a _ _ _ _ _ => a

/-- Address of the nearest ancestor in whose left subtree the hole lies,
`0` (the past-the-end marker) if there is none. -/
def upLeft : Ctx → Nat
  | .top => 0
  | .inL a _ _ _ _ _ => a
  | .inR _ _ _ _ _ up => upLeft up

/-- In-order contents of the whole tree strictly after the hole subtree. -/
def afterD : Ctx → List (Int × Int)
  | .top => []
  | .inL a c k v r up => (k, v) :: (inorderD r ++ afterD up)
  | .inR _ _ _ _ _ up => afterD up

/-- In-order contents of the whole tree strictly before the hole subtree. -/
def beforeD : Ctx → List (Int × Int)
  | .top => []
  | .inL _ _ _ _ _ up => beforeD up
  | .inR _ _ l k v up => beforeD up ++ inorderD l ++ [(k, v)]

/-- Addresses of the context's nodes and sibling subtrees. -/
def ctxAddrs : Ctx → List Nat
  | .top => []
  | .inL a _ _ _ r up => a :: (addrsD r ++ ctxAddrs up)
  | .inR a _ l _ _ up => a :: (addrsD l ++ ctxAddrs up)

/-- Number of steps in the context. -/
def ctxLen : Ctx → Nat
  | .top => 0
  | .inL _ _ _ _ _ up => ctxLen up + 1
  | .inR _ _ _ _ _ up => ctxLen up + 1

/-- Address of the leftmost node of a subtree, the sentinel's address for
an empty subtree (matching `allLeft` applied to the sentinel). -/
def leftmostAD (nilA : Nat) : DTree → Nat
  | .dnil => nilA
  | .dnode a _ l _ _ _ =>
    match l with
    | .dnil => a
    | .dnode b c ll k v lr => leftmostAD nilA (.dnode b c ll k v lr)

/-- The heap realizes the context around a hole whose subtree root
address is given: every context node's cell holds its parent, the hole
address or sibling root in the proper child slots, and its payload; the
root pointer points at the outermost address. -/
def realizesUp (s : TreeState) : Ctx → Nat → Bool
  | .top, ha => decide (s.root = ha)
  | .inL a c k v r up, ha =>
    decide (a ≠ 0) && decide (a ≠ s.nil) &&
    decide (s.heap a = some
      { parent := holeParent s.nil up, left := ha, right := rootA s.nil r
        color := c, key := k, val := v }) &&
    realizes s a r && realizesUp s up a
  | .inR a c l k v up, ha =>
    decide (a ≠ 0) && decide (a ≠ s.nil) &&
    decide (s.heap a = some
      { parent := holeParent s.nil up, left := rootA s.nil l, right := ha
        color := c, key := k, val := v }) &&
    realizes s a l && realizesUp s up a

/-- Composition of contexts: replace the first context's top with the
second context, so the hole of the first becomes a hole of the composite. -/
def ctxAppend : Ctx → Ctx → Ctx
  | .top, D => D
  | .inL a c k v r up, D => .inL a c k v r (ctxAppend up D)
  | .inR a c l k v up, D => .inR a c l k v (ctxAppend up D)

/-- The color at the root of a subtree (black for the sentinel). -/
def topBlackB : DTree → Bool
  | .dnil => true
  | .dnode _ c _ _ _ _ => decide (c = Color.black)

/-- Well-formedness of a state seen from a hole: live self-looping
sentinel, realized context and hole subtree, and distinct in-bounds
addresses over the whole plugged tree. -/
def wfAt (s : TreeState) (C : Ctx) (t : DTree) : Bool :=
  decide (s.nil ≠ 0) && decide (s.nil < s.nextAddr) && nilOkB s &&
  realizesUp s C (rootA s.nil t) && realizes s (holeParent s.nil C) t &&
  decide ((addrsD (plugD C t)).Nodup) &&
  (addrsD (plugD C t)).all (fun a => decide (a < s.nextAddr)) &&
  decide (s.nil ∉ addrsD (plugD C t))

end RBT

namespace RBT

/-- Claim C1 (code bug evaluation).  Starting from the empty tree, the
public sequence insert 2, insert 1, insert 3, erase 3, insert 0 ends in a
state whose in-order keys are strictly increasing (I1 holds) and in which
no red node has a red parent (I2 holds), but whose root-to-sentinel black
counts differ (the I3 checker reports a mismatch): erasing the red leaf 3
leaves the sentinel red, and the following insert's fixup then treats the
sentinel as a red uncle and recolors where it should rotate.  This
refutes the claim that I1–I3 hold after every public insert or erase. -/
theorem claim_C1_black_height_violated :
    obsC1 = some ([0, 1, 2], true, none) ∧
    nilColorAfterRedLeafErase = some Color.red ∧
    strictIncr ltInt [0, 1, 2] = true := by
  decide

/-- Claim C2 (code bug evaluation).  On a freshly constructed empty tree,
`size()` is 0, but `begin()` returns an iterator holding the sentinel
(address 1) while `end()` holds `nullptr` (address 0), so
`begin() != end()`; moreover `operator++` on that iterator
(`successor` of the sentinel) yields the sentinel again, so iterating
from `begin()` to `end()` never terminates and there is no count of
entries for `size()` to equal.  This refutes the claim that on an empty
tree `begin() == end()` with a zero-entry iteration. -/
theorem claim_C2_empty_iteration_broken :
    RBT.size tree0 = 0 ∧
    RBT.begin tree0 = some tree0.nil ∧
    tree0.nil ≠ endAddr ∧
    successor tree0 (fuelOf tree0) tree0.nil = some tree0.nil := by
  decide

/-- Claim C3 counterexample.  After move-constructing from a tree holding
one entry, the moved-from object's sentinel pointer (and root pointer)
is null — not a fresh sentinel — and inserting into it faults by
dereferencing the null sentinel inside `insertFixup`.  This refutes both
the never-null-sentinel part and the still-insertable part of the
claim. -/
theorem claim_C3_counterexample :
    (srcC3.map fun s => (s.nil, s.root, (insert ltInt counters0 s 5 5).isSome))
      = some (0, 0, false) := by
  decide

/-- Claim C3 as amended.  Move construction swaps the tree's pointers
with the default-constructed (null) `TreeBase` of the destination, so the
moved-from tree is left with null sentinel and root pointers; it does
satisfy `empty()` and `size() == 0`, and destroying it is safe (its
destructor deallocates nothing), but it cannot be inserted into — the
insert faults on the null sentinel. -/
theorem claim_C3_amended_thm :
    (srcC3.map fun s => s.nil) = some 0 ∧
    (srcC3.map fun s => s.root) = some 0 ∧
    (srcC3.map RBT.empty) = some true ∧
    (srcC3.map RBT.size) = some 0 ∧
    (srcC3.map fun s => (insert ltInt counters0 s 5 5).isSome) = some false ∧
    (srcC3.bind fun s => destructor counters0 s) = some counters0 := by
  decide

/-- Claim C4 counterexample.  Constructing a tree with a tracking
allocator and inserting 4 elements performs 5 allocations, not 4: the
constructor's `createNil` allocates the sentinel through the same
allocator (the repository's own test expects 5). -/
theorem claim_C4_counterexample :
    allocsAfterInsert4 = some 5 ∧ allocsAfterInsert4 ≠ some 4 := by
  decide

/-- Claim C4 as amended.  With a tracking allocator: construction plus 4
inserts performs exactly 5 allocations (one sentinel plus one node per
element); copy construction doubles the total to 10 (a fresh sentinel
plus a fresh node per element); move construction from the copy performs
zero additional allocations (the graph is transferred and the moved-from
tree is left with null pointers); after destroying all three trees the
total allocation count equals the total deallocation count, 10 each. -/
theorem claim_C4_amended_thm :
    scenarioC4 = some (5, 10, 7, 10, 10) := by
  decide

/-- Claim C10.  Membership at the public interface is decided by
`operator==` on keys at the node where the comparator-driven descent
stops.  Under the comparator `a/2 < b/2` (whose equivalence is coarser
than `==`): inserting key 2 and then the comparator-equivalent key 3 into
an empty tree attaches both (both inserted flags true, size 2, in-order
contents [(2,100), (3,200)]), demonstrating that insert attaches a second
entry comparator-equivalent to an existing one; afterwards `at(3)` fails
with KeyNotFound and `find(3)` returns `end()` even though key 3 is in
the tree, because the descent for 3 stops at the node holding 2 and
`2 == 3` is false, while `at(2)` still returns its stored value. -/
theorem claim_C10_membership_by_eq :
    obsC10 = some (true, true, 2, [(2, 100), (3, 200)]) ∧
    (stateC10.bind fun s => (atKey cmpDiv2 s 3).map atValue) = some none ∧
    (stateC10.bind fun s => (atKey cmpDiv2 s 2).map atValue) = some (some 100) ∧
    (stateC10.bind fun s => find cmpDiv2 s 3) = some endAddr := by
  decide

set_option maxRecDepth 8000 in
/-- Claim C8 counterexample.  Two freshly constructed empty trees with
equal allocator identities have equal sizes (0) and (vacuously) pairwise
equal entries, so the claim asserts `operator==` returns true; but the
implementation's `std::equal` starts from `begin()`, which on an empty
tree is the sentinel rather than `end()`, and advancing the iterator
reproduces the sentinel forever, so the comparison dereferences the
sentinel's uninitialised payload and never terminates — it does not
return true (the fueled loop faults instead of answering). -/
theorem claim_C8_counterexample :
    emptyA.allocId = emptyB.allocId ∧ emptyA.size = 0 ∧ emptyB.size = 0 ∧
    treeEq emptyA emptyB = none ∧
    stdEqual emptyA emptyB 50 emptyA.nil emptyB.nil = none := by
  decide

/-- Claim C9 counterexample.  The freshly constructed empty tree
satisfies the red-black invariants (the I2 and I3 checkers accept it and
it has no keys to be out of order), yet forward iteration from `begin()`
does not terminate at `end()`: `begin()` holds the sentinel, not the
`end()` marker, and `operator++` (successor) maps the sentinel to itself
forever. -/
theorem claim_C9_counterexample :
    noRedRed tree0 20 tree0.root Color.black = some true ∧
    blackHeights tree0 20 tree0.root = some (some 0) ∧
    RBT.begin tree0 = some tree0.nil ∧
    tree0.nil ≠ endAddr ∧
    successor tree0 (fuelOf tree0) tree0.nil = some tree0.nil := by
  decide

end RBT

namespace RBT

/-- Equation for `rootA` at an empty subtree. -/
theorem rootA_dnil (nilA : Nat) : rootA nilA .dnil = nilA := rfl

/-- Equation for `rootA` at a node. -/
theorem rootA_dnode (nilA a : Nat) (c : Color) (l r : DTree) (k v : Int) :
    rootA nilA (.dnode a c l k v r) = a := rfl

/-- Unpacking of `realizes` at a node. -/
theorem realizes_dnode {s : TreeState} {pa a : Nat} {c : Color} {l r : DTree}
    {k v : Int} (h : realizes s pa (.dnode a c l k v r) = true) :
    a ≠ 0 ∧ a ≠ s.nil ∧
    s.heap a = some
      { parent := pa, left := rootA s.nil l, right := rootA s.nil r
        color := c, key := k, val := v } ∧
    realizes s a l = true ∧ realizes s a r = true := by
  simp only [realizes, Bool.and_eq_true, decide_eq_true_eq] at h
  exact ⟨h.1.1.1.1, h.1.1.1.2, h.1.1.2, h.1.2, h.2⟩

/-- Reading a live non-null cell. -/
theorem readN_some {s : TreeState} {a : Nat} {n : NodeRec}
    (h0 : a ≠ 0) (h : s.heap a = some n) : readN s.heap a = some n := by
  simp [readN, h0, h]

/-- Unpacking of `wfB`. -/
theorem wfB_parts {s : TreeState} {t : DTree} (h : wfB s t = true) :
    s.nil ≠ 0 ∧ s.nil < s.nextAddr ∧ nilOkB s = true ∧
    s.root = rootA s.nil t ∧ realizes s s.nil t = true ∧
    (addrsD t).Nodup ∧ (∀ a ∈ addrsD t, a < s.nextAddr) ∧
    s.nil ∉ addrsD t ∧ depthD t + 2 ≤ s.nextAddr ∧
    s.size = (inorderD t).length := by
  simp only [wfB, Bool.and_eq_true, decide_eq_true_eq, List.all_eq_true] at h
  refine ⟨h.1.1.1.1.1.1.1.1.1, h.1.1.1.1.1.1.1.1.2, h.1.1.1.1.1.1.1.2,
    h.1.1.1.1.1.1.2, h.1.1.1.1.1.2, h.1.1.1.1.2, ?_, h.1.1.2, h.1.2, h.2⟩
  intro a ha
  have := h.1.1.1.2 a ha
  simpa using this

/-- The `findNode` descent loop realizes `stopD`: starting at the root of
a realized subtree with the last-visited node `prev`, it stops at the
`stopD` node, or returns `prev` if the subtree is empty. -/
theorem findNodeLoop_spec (k : Int) :
    ∀ (t : DTree) (s : TreeState) (pa prev fuel : Nat),
      realizes s pa t = true → depthD t + 2 ≤ fuel →
      findNodeLoop s ltInt k fuel prev (rootA s.nil t) =
        some ((stopD k t).elim prev (fun x => x.1)) := by
  intro t
  induction t with
  | dnil =>
    intro s pa prev fuel _ hf
    match fuel, hf with
    | f + 1, _ => simp [findNodeLoop, rootA_dnil, stopD]
  | dnode a c l k0 v r ihl ihr =>
    intro s pa prev fuel hr hf
    obtain ⟨ha0, hanil, hheap, hl, hr2⟩ := realizes_dnode hr
    have hdl : depthD l + 2 ≤ fuel - 1 := by
      simp only [depthD] at hf; omega
    have hdr : depthD r + 2 ≤ fuel - 1 := by
      simp only [depthD] at hf; omega
    match fuel, hf with
    | f + 1, _ =>
      simp only [rootA_dnode, findNodeLoop, if_neg hanil, readN_some ha0 hheap,
        Option.bind_eq_bind, Option.some_bind]
      by_cases h1 : ltInt k k0
      · rw [if_pos h1]
        have := ihl s a a f hl (by omega)
        rw [this]
        simp only [stopD, if_pos h1]
        cases stopD k l <;> simp
      · rw [if_neg h1]
        by_cases h2 : ltInt k0 k
        · rw [if_pos h2]
          have := ihr s a a f hr2 (by omega)
          rw [this]
          simp only [stopD, if_neg h1, if_pos h2]
          cases stopD k r <;> simp
        · rw [if_neg h2]
          have hf1 : (1 : Nat) ≤ f := by simp only [depthD] at hf ⊢; omega
          match f, hf1 with
          | g + 1, _ =>
            simp [findNodeLoop, stopD, if_neg h1, if_neg h2]

/-- `findNode` on a well-formed tree stops at the `stopD` node, or at the
sentinel (via the root pointer) when the tree is empty. -/
theorem findNode_spec {s : TreeState} {t : DTree} (k : Int)
    (hwf : wfB s t = true) :
    findNode s ltInt (fuelOf s) k =
      some ((stopD k t).elim s.root (fun x => x.1)) := by
  obtain ⟨h0, hlt, hnil, hroot, hreal, _, _, _, hdep, _⟩ := wfB_parts hwf
  have hfuel : depthD t + 2 ≤ fuelOf s := by
    simp only [fuelOf]; omega
  have h2 := findNodeLoop_spec k t s s.nil s.root (fuelOf s) hreal hfuel
  simp only [findNode]
  nth_rewrite 2 [hroot]
  exact h2

end RBT

namespace RBT

/-- Keys of a node: left keys, the node's key, right keys. -/
theorem keysD_dnode {a : Nat} {c : Color} {l r : DTree} {k v : Int} :
    keysD (.dnode a c l k v r) = keysD l ++ k :: keysD r := by
  simp [keysD, inorderD]

/-- A key bound holding over a subtree holds for each of its keys. -/
theorem allKeysD_mem {p : Int → Bool} :
    ∀ {t : DTree} {x : Int}, allKeysD p t = true → x ∈ keysD t → p x = true := by
  intro t
  induction t with
  | dnil => intro x _ hx; simp [keysD, inorderD] at hx
  | dnode a c l k v r ihl ihr =>
    intro x hall hx
    simp only [allKeysD, Bool.and_eq_true] at hall
    rw [keysD_dnode] at hx
    rcases List.mem_append.mp hx with h | h
    · exact ihl hall.1.2 h
    · rcases List.mem_cons.mp h with h | h
      · subst h; exact hall.1.1
      · exact ihr hall.2 h

/-- The stop node of a realized subtree is a live non-sentinel cell
holding the stop key and value. -/
theorem stopD_heap {k : Int} :
    ∀ {t : DTree} {s : TreeState} {pa a : Nat} {k0 v0 : Int},
      realizes s pa t = true → stopD k t = some (a, k0, v0) →
      a ≠ 0 ∧ a ≠ s.nil ∧
        ∃ n : NodeRec, s.heap a = some n ∧ n.key = k0 ∧ n.val = v0 := by
  intro t
  induction t with
  | dnil => intro s pa a k0 v0 _ h; simp [stopD] at h
  | dnode b c l kb vb r ihl ihr =>
    intro s pa a k0 v0 hr hstop
    obtain ⟨hb0, hbnil, hheap, hl, hr2⟩ := realizes_dnode hr
    simp only [stopD] at hstop
    by_cases h1 : ltInt k kb
    · rw [if_pos h1] at hstop
      cases hl2 : stopD k l with
      | none =>
        rw [hl2] at hstop
        simp only [Option.some.injEq, Prod.mk.injEq] at hstop
        obtain ⟨rfl, rfl, rfl⟩ := hstop
        exact ⟨hb0, hbnil, _, hheap, rfl, rfl⟩
      | some x =>
        rw [hl2] at hstop
        simp only [Option.some.injEq] at hstop
        subst hstop
        exact ihl hl hl2
    · rw [if_neg h1] at hstop
      by_cases h2 : ltInt kb k
      · rw [if_pos h2] at hstop
        cases hr3 : stopD k r with
        | none =>
          rw [hr3] at hstop
          simp only [Option.some.injEq, Prod.mk.injEq] at hstop
          obtain ⟨rfl, rfl, rfl⟩ := hstop
          exact ⟨hb0, hbnil, _, hheap, rfl, rfl⟩
        | some x =>
          rw [hr3] at hstop
          simp only [Option.some.injEq] at hstop
          subst hstop
          exact ihr hr2 hr3
      · rw [if_neg h2] at hstop
        simp only [Option.some.injEq, Prod.mk.injEq] at hstop
        obtain ⟨rfl, rfl, rfl⟩ := hstop
        exact ⟨hb0, hbnil, _, hheap, rfl, rfl⟩

/-- On a BST-ordered subtree, the descent for a present key stops at a
node holding that key and its stored value. -/
theorem stopD_present {k v : Int} :
    ∀ {t : DTree}, bstB t = true → (k, v) ∈ inorderD t →
      ∃ a, stopD k t = some (a, k, v) := by
  intro t
  induction t with
  | dnil => intro _ h; simp [inorderD] at h
  | dnode b c l kb vb r ihl ihr =>
    intro hb hm
    simp only [bstB, Bool.and_eq_true] at hb
    simp only [inorderD, List.mem_append, List.mem_cons] at hm
    rcases hm with h | h | h
    · have hkmem : k ∈ keysD l := by
        simp only [keysD, List.mem_map]
        exact ⟨(k, v), h, rfl⟩
      have hklt : ltInt k kb = true :=
        @allKeysD_mem (fun x => ltInt x kb) l k hb.1.1.1 hkmem
      obtain ⟨a, ha⟩ := ihl hb.1.2 h
      exact ⟨a, by simp [stopD, hklt, ha]⟩
    · have hkk : k = kb ∧ v = vb := by simpa using h
      obtain ⟨rfl, rfl⟩ := hkk
      refine ⟨b, ?_⟩
      have hirr : ltInt k k = false := by simp [ltInt]
      simp [stopD, hirr]
    · have hkmem : k ∈ keysD r := by
        simp only [keysD, List.mem_map]
        exact ⟨(k, v), h, rfl⟩
      have hklt : ltInt kb k = true :=
        @allKeysD_mem (fun x => ltInt kb x) r k hb.1.1.2 hkmem
      have hnlt : ltInt k kb = false := by
        simp only [ltInt, decide_eq_true_eq] at hklt
        simp only [ltInt, decide_eq_false_iff_not]
        omega
      obtain ⟨a, ha⟩ := ihr hb.2 h
      exact ⟨a, by simp [stopD, hnlt, hklt, ha]⟩

/-- On a BST-ordered subtree, the descent for an absent key stops at a
node whose key differs from the probe. -/
theorem stopD_absent {k : Int} :
    ∀ {t : DTree}, bstB t = true → k ∉ keysD t →
      ∀ {a : Nat} {k0 v0 : Int}, stopD k t = some (a, k0, v0) → k0 ≠ k := by
  intro t
  induction t with
  | dnil => intro _ _ a k0 v0 h; simp [stopD] at h
  | dnode b c l kb vb r ihl ihr =>
    intro hb hnot a k0 v0 hstop
    simp only [bstB, Bool.and_eq_true] at hb
    rw [keysD_dnode] at hnot
    simp only [List.mem_append, List.mem_cons, not_or] at hnot
    simp only [stopD] at hstop
    by_cases h1 : ltInt k kb
    · rw [if_pos h1] at hstop
      cases hl2 : stopD k l with
      | none =>
        rw [hl2] at hstop
        simp only [Option.some.injEq, Prod.mk.injEq] at hstop
        obtain ⟨_, rfl, _⟩ := hstop
        exact fun h => hnot.2.1 h.symm
      | some x =>
        rw [hl2] at hstop
        simp only [Option.some.injEq] at hstop
        subst hstop
        exact ihl hb.1.2 hnot.1 hl2
    · rw [if_neg h1] at hstop
      by_cases h2 : ltInt kb k
      · rw [if_pos h2] at hstop
        cases hr3 : stopD k r with
        | none =>
          rw [hr3] at hstop
          simp only [Option.some.injEq, Prod.mk.injEq] at hstop
          obtain ⟨_, rfl, _⟩ := hstop
          exact fun h => hnot.2.1 h.symm
        | some x =>
          rw [hr3] at hstop
          simp only [Option.some.injEq] at hstop
          subst hstop
          exact ihr hb.2 hnot.2.2 hr3
      · exfalso
        simp only [ltInt, decide_eq_true_eq] at h1 h2
        exact hnot.2.1 (by omega)

/-- The descent on a nonempty subtree always stops at some node. -/
theorem stopD_dnode_ne_none {k : Int} {b : Nat} {c : Color} {l r : DTree}
    {kb vb : Int} : stopD k (.dnode b c l kb vb r) ≠ none := by
  simp only [stopD]
  by_cases h1 : ltInt k kb
  · rw [if_pos h1]; cases stopD k l <;> simp
  · rw [if_neg h1]
    by_cases h2 : ltInt kb k
    · rw [if_pos h2]; cases stopD k r <;> simp
    · rw [if_neg h2]; simp

/-- Claim C5.  For every well-formed BST-ordered tree (including the
empty tree) and every key `k`, `at(k)` fails with the KeyNotFound error
(`std::out_of_range`) if and only if no entry with key `k` is present,
and for a present key it returns the value stored under `k`.  The tree
is unchanged in both cases by construction: `at` is a const member whose
embedding performs no store and returns no state. -/
theorem claim_C5_at_key_not_found (s : TreeState) (t : DTree) (k : Int)
    (hwf : wfB s t = true) (hbst : bstB t = true) :
    (atKey ltInt s k = some (Except.error ()) ↔ k ∉ keysD t) ∧
    (∀ v, (k, v) ∈ inorderD t → atKey ltInt s k = some (Except.ok v)) := by
  have hfind := findNode_spec k hwf
  obtain ⟨h0, hlt, hnil, hroot, hreal, _, _, _, _, _⟩ := wfB_parts hwf
  cases t with
  | dnil =>
    have hstop : stopD k DTree.dnil = none := rfl
    rw [hstop] at hfind
    simp only [Option.elim] at hfind
    have hatkey : atKey ltInt s k = some (Except.error ()) := by
      simp only [atKey, hfind, Option.bind_eq_bind, Option.some_bind]
      rw [hroot]
      simp [rootA_dnil]
    constructor
    · constructor
      · intro _; simp [keysD, inorderD]
      · intro _; exact hatkey
    · intro v hv; simp [inorderD] at hv
  | dnode b c l kb vb r =>
    cases hstop : stopD k (DTree.dnode b c l kb vb r) with
    | none => exact absurd hstop (stopD_dnode_ne_none)
    | some x =>
      obtain ⟨a, k0, v0⟩ := x
      rw [hstop] at hfind
      simp only [Option.elim] at hfind
      obtain ⟨ha0, hanil, n, hn, hnk, hnv⟩ := stopD_heap hreal hstop
      have hread := readN_some ha0 hn
      have hatkey : atKey ltInt s k =
          some (if k = k0 then Except.ok v0 else Except.error ()) := by
        simp only [atKey, hfind, Option.bind_eq_bind, Option.some_bind]
        rw [if_pos hanil]
        simp only [hread, Option.some_bind, hnk, hnv]
        by_cases hk : k = k0
        · rw [if_pos hk, if_pos hk]; rfl
        · rw [if_neg hk, if_neg hk]; rfl
      constructor
      · constructor
        · intro herr
          intro hkmem
          obtain ⟨⟨k1, v1⟩, hpair, hfst⟩ := List.mem_map.mp hkmem
          simp only at hfst
          subst hfst
          obtain ⟨a2, ha2⟩ := stopD_present hbst hpair
          rw [hstop] at ha2
          simp only [Option.some.injEq, Prod.mk.injEq] at ha2
          obtain ⟨_, h1, _⟩ := ha2
          rw [hatkey] at herr
          rw [if_pos h1.symm] at herr
          simp at herr
        · intro habs
          have hne := stopD_absent hbst habs hstop
          rw [hatkey, if_neg (fun h => hne h.symm)]
      · intro v hv
        obtain ⟨a2, ha2⟩ := stopD_present hbst hv
        rw [hstop] at ha2
        simp only [Option.some.injEq, Prod.mk.injEq] at ha2
        obtain ⟨_, h1, h2⟩ := ha2
        rw [hatkey, if_pos h1.symm, h2]

/-- Witness for claim C5 at the concrete two-entry tree `sW`: key 5 is
absent and `at(5)` reports KeyNotFound; entry (2, 20) is present and
`at(2)` returns 20. -/
theorem claim_C5_witness :
    wfB sW tW = true ∧ bstB tW = true ∧
    atKey ltInt sW 5 = some (Except.error ()) ∧
    atKey ltInt sW 2 = some (Except.ok 20) :=
  ⟨by decide, by decide,
   (claim_C5_at_key_not_found sW tW 5 (by decide) (by decide)).1.mpr (by decide),
   (claim_C5_at_key_not_found sW tW 2 (by decide) (by decide)).2 20 (by decide)⟩

end RBT

namespace RBT

/-- A duplicate-free list of naturals below `n` has at most `n` elements. -/
theorem nodup_length_le {l : List Nat} {n : Nat}
    (hnd : l.Nodup) (hb : ∀ a ∈ l, a < n) : l.length ≤ n := by
  classical
  have hsub : l.toFinset ⊆ Finset.range n := by
    intro a ha
    simp only [List.mem_toFinset] at ha
    simpa using hb a ha
  have hcard := Finset.card_le_card hsub
  rwa [List.toFinset_card_of_nodup hnd, Finset.card_range] at hcard

/-- Addresses of a plugged tree are a permutation of hole plus context
addresses. -/
theorem addrsD_plugD (t : DTree) :
    ∀ C : Ctx, List.Perm (addrsD (plugD C t)) (addrsD t ++ ctxAddrs C) := by
  intro C
  induction C generalizing t with
  | top => simp [plugD, ctxAddrs]
  | inL a c k v r up ih =>
    have h1 := ih (.dnode a c t k v r)
    simp only [plugD]
    refine h1.trans ?_
    simp only [addrsD, ctxAddrs, List.cons_append, List.append_assoc]
    exact (List.perm_middle).symm
  | inR a c l k v up ih =>
    have h1 := ih (.dnode a c l k v t)
    simp only [plugD]
    refine h1.trans ?_
    simp only [addrsD, ctxAddrs, List.cons_append, List.append_assoc]
    refine List.Perm.trans ?_ (List.perm_middle).symm
    exact List.Perm.cons a (List.perm_append_comm_assoc _ _ _)

end RBT

namespace RBT

/-- Introduction for `realizes` at a node. -/
theorem realizes_dnode_intro {s : TreeState} {pa a : Nat} {c : Color}
    {l r : DTree} {k v : Int} (h1 : a ≠ 0) (h2 : a ≠ s.nil)
    (h3 : s.heap a = some
      { parent := pa, left := rootA s.nil l, right := rootA s.nil r
        color := c, key := k, val := v })
    (h4 : realizes s a l = true) (h5 : realizes s a r = true) :
    realizes s pa (.dnode a c l k v r) = true := by
  simp only [realizes, Bool.and_eq_true, decide_eq_true_eq]
  exact ⟨⟨⟨⟨h1, h2⟩, h3⟩, h4⟩, h5⟩

/-- Unpacking of `realizesUp` at a left step. -/
theorem realizesUp_inL {s : TreeState} {a : Nat} {c : Color} {k v : Int}
    {r : DTree} {up : Ctx} {ha : Nat}
    (h : realizesUp s (.inL a c k v r up) ha = true) :
    a ≠ 0 ∧ a ≠ s.nil ∧
    s.heap a = some
      { parent := holeParent s.nil up, left := ha, right := rootA s.nil r
        color := c, key := k, val := v } ∧
    realizes s a r = true ∧ realizesUp s up a = true := by
  simp only [realizesUp, Bool.and_eq_true, decide_eq_true_eq] at h
  exact ⟨h.1.1.1.1, h.1.1.1.2, h.1.1.2, h.1.2, h.2⟩

/-- Introduction for `realizesUp` at a left step. -/
theorem realizesUp_inL_intro {s : TreeState} {a : Nat} {c : Color}
    {k v : Int} {r : DTree} {up : Ctx} {ha : Nat}
    (h1 : a ≠ 0) (h2 : a ≠ s.nil)
    (h3 : s.heap a = some
      { parent := holeParent s.nil up, left := ha, right := rootA s.nil r
        color := c, key := k, val := v })
    (h4 : realizes s a r = true) (h5 : realizesUp s up a = true) :
    realizesUp s (.inL a c k v r up) ha = true := by
  simp only [realizesUp, Bool.and_eq_true, decide_eq_true_eq]
  exact ⟨⟨⟨⟨h1, h2⟩, h3⟩, h4⟩, h5⟩

/-- Unpacking of `realizesUp` at a right step. -/
theorem realizesUp_inR {s : TreeState} {a : Nat} {c : Color} {l : DTree}
    {k v : Int} {up : Ctx} {ha : Nat}
    (h : realizesUp s (.inR a c l k v up) ha = true) :
    a ≠ 0 ∧ a ≠ s.nil ∧
    s.heap a = some
      { parent := holeParent s.nil up, left := rootA s.nil l, right := ha
        color := c, key := k, val := v } ∧
    realizes s a l = true ∧ realizesUp s up a = true := by
  simp only [realizesUp, Bool.and_eq_true, decide_eq_true_eq] at h
  exact ⟨h.1.1.1.1, h.1.1.1.2, h.1.1.2, h.1.2, h.2⟩

/-- Introduction for `realizesUp` at a right step. -/
theorem realizesUp_inR_intro {s : TreeState} {a : Nat} {c : Color}
    {l : DTree} {k v : Int} {up : Ctx} {ha : Nat}
    (h1 : a ≠ 0) (h2 : a ≠ s.nil)
    (h3 : s.heap a = some
      { parent := holeParent s.nil up, left := rootA s.nil l, right := ha
        color := c, key := k, val := v })
    (h4 : realizes s a l = true) (h5 : realizesUp s up a = true) :
    realizesUp s (.inR a c l k v up) ha = true := by
  simp only [realizesUp, Bool.and_eq_true, decide_eq_true_eq]
  exact ⟨⟨⟨⟨h1, h2⟩, h3⟩, h4⟩, h5⟩

/-- Unpacking of `wfAt`. -/
theorem wfAt_parts {s : TreeState} {C : Ctx} {t : DTree}
    (h : wfAt s C t = true) :
    s.nil ≠ 0 ∧ s.nil < s.nextAddr ∧ nilOkB s = true ∧
    realizesUp s C (rootA s.nil t) = true ∧
    realizes s (holeParent s.nil C) t = true ∧
    (addrsD (plugD C t)).Nodup ∧
    (∀ a ∈ addrsD (plugD C t), a < s.nextAddr) ∧
    s.nil ∉ addrsD (plugD C t) := by
  simp only [wfAt, Bool.and_eq_true, decide_eq_true_eq, List.all_eq_true] at h
  refine ⟨h.1.1.1.1.1.1.1, h.1.1.1.1.1.1.2, h.1.1.1.1.1.2, h.1.1.1.1.2,
    h.1.1.1.2, h.1.1.2, ?_, h.2⟩
  intro a ha
  simpa using h.1.2 a ha

/-- Introduction for `wfAt`. -/
theorem wfAt_intro {s : TreeState} {C : Ctx} {t : DTree}
    (h1 : s.nil ≠ 0) (h2 : s.nil < s.nextAddr) (h3 : nilOkB s = true)
    (h4 : realizesUp s C (rootA s.nil t) = true)
    (h5 : realizes s (holeParent s.nil C) t = true)
    (h6 : (addrsD (plugD C t)).Nodup)
    (h7 : ∀ a ∈ addrsD (plugD C t), a < s.nextAddr)
    (h8 : s.nil ∉ addrsD (plugD C t)) :
    wfAt s C t = true := by
  simp only [wfAt, Bool.and_eq_true, decide_eq_true_eq, List.all_eq_true]
  refine ⟨⟨⟨⟨⟨⟨⟨h1, h2⟩, h3⟩, h4⟩, h5⟩, h6⟩, ?_⟩, h8⟩
  intro a ha
  simpa using h7 a ha

/-- Rebuilding through a left step. -/
theorem plugD_inL (a : Nat) (c : Color) (k v : Int) (r : DTree) (C : Ctx)
    (t : DTree) : plugD (.inL a c k v r C) t = plugD C (.dnode a c t k v r) :=
  rfl

/-- Rebuilding through a right step. -/
theorem plugD_inR (a : Nat) (c : Color) (l : DTree) (k v : Int) (C : Ctx)
    (t : DTree) : plugD (.inR a c l k v C) t = plugD C (.dnode a c l k v t) :=
  rfl

/-- Moving the hole between a node and its left child preserves `wfAt`. -/
theorem wfAt_inL_iff {s : TreeState} {C : Ctx} {a : Nat} {c : Color}
    {k v : Int} {r t0 : DTree} :
    wfAt s (.inL a c k v r C) t0 = true ↔
      wfAt s C (.dnode a c t0 k v r) = true := by
  constructor
  · intro h
    obtain ⟨h1, h2, h3, h4, h5, h6, h7, h8⟩ := wfAt_parts h
    obtain ⟨ha0, hanil, hcell, hrr, hupC⟩ := realizesUp_inL h4
    refine wfAt_intro h1 h2 h3 ?_ ?_ h6 h7 h8
    · rw [rootA_dnode]; exact hupC
    · exact realizes_dnode_intro ha0 hanil hcell h5 hrr
  · intro h
    obtain ⟨h1, h2, h3, h4, h5, h6, h7, h8⟩ := wfAt_parts h
    obtain ⟨ha0, hanil, hcell, hl, hr⟩ := realizes_dnode h5
    rw [rootA_dnode] at h4
    refine wfAt_intro h1 h2 h3 ?_ ?_ h6 h7 h8
    · exact realizesUp_inL_intro ha0 hanil hcell hr h4
    · exact hl

/-- Moving the hole between a node and its right child preserves `wfAt`. -/
theorem wfAt_inR_iff {s : TreeState} {C : Ctx} {a : Nat} {c : Color}
    {l : DTree} {k v : Int} {t0 : DTree} :
    wfAt s (.inR a c l k v C) t0 = true ↔
      wfAt s C (.dnode a c l k v t0) = true := by
  constructor
  · intro h
    obtain ⟨h1, h2, h3, h4, h5, h6, h7, h8⟩ := wfAt_parts h
    obtain ⟨ha0, hanil, hcell, hrl, hupC⟩ := realizesUp_inR h4
    refine wfAt_intro h1 h2 h3 ?_ ?_ h6 h7 h8
    · rw [rootA_dnode]; exact hupC
    · exact realizes_dnode_intro ha0 hanil hcell hrl h5
  · intro h
    obtain ⟨h1, h2, h3, h4, h5, h6, h7, h8⟩ := wfAt_parts h
    obtain ⟨ha0, hanil, hcell, hl, hr⟩ := realizes_dnode h5
    rw [rootA_dnode] at h4
    refine wfAt_intro h1 h2 h3 ?_ ?_ h6 h7 h8
    · exact realizesUp_inR_intro ha0 hanil hcell hl h4
    · exact hr

end RBT

namespace RBT

/-- The sentinel cell of a well-formed state. -/
theorem nilOkB_parts {s : TreeState} (h : nilOkB s = true) :
    ∃ n0 : NodeRec, s.heap s.nil = some n0 ∧ n0.left = s.nil ∧
      n0.right = s.nil := by
  unfold nilOkB at h
  cases hn : s.heap s.nil with
  | none => rw [hn] at h; simp at h
  | some n0 =>
    rw [hn] at h
    simp only [Bool.and_eq_true, decide_eq_true_eq] at h
    exact ⟨n0, rfl, h.1, h.2⟩

/-- A subtree's height is at most its node count. -/
theorem depthD_le_length : ∀ t : DTree, depthD t ≤ (addrsD t).length := by
  intro t
  induction t with
  | dnil => simp [depthD, addrsD]
  | dnode a c l k v r ihl ihr =>
    simp only [depthD, addrsD, List.length_cons, List.length_append]
    omega

/-- A context's length is at most its address count. -/
theorem ctxLen_le_length : ∀ C : Ctx, ctxLen C ≤ (ctxAddrs C).length := by
  intro C
  induction C with
  | top => simp [ctxLen, ctxAddrs]
  | inL a c k v r up ih =>
    simp only [ctxLen, ctxAddrs, List.length_cons, List.length_append]
    omega
  | inR a c l k v up ih =>
    simp only [ctxLen, ctxAddrs, List.length_cons, List.length_append]
    omega

/-- Fuel and distinctness facts derived from `wfAt`: the hole subtree and
the context each fit within the tree's allocation bound. -/
theorem wfAt_bounds {s : TreeState} {C : Ctx} {t : DTree}
    (h : wfAt s C t = true) :
    (addrsD t).Nodup ∧ (ctxAddrs C).Nodup ∧
    (∀ x ∈ addrsD t, x ∉ ctxAddrs C) ∧
    depthD t + 2 ≤ fuelOf s ∧ ctxLen C + 2 ≤ fuelOf s ∧
    s.nil ∉ addrsD t ∧
    (addrsD t ++ ctxAddrs C).length ≤ s.nextAddr := by
  obtain ⟨h1, h2, h3, h4, h5, h6, h7, h8⟩ := wfAt_parts h
  have hperm := addrsD_plugD t C
  have hnd : (addrsD t ++ ctxAddrs C).Nodup := hperm.nodup h6
  have hb : ∀ a ∈ addrsD t ++ ctxAddrs C, a < s.nextAddr := by
    intro a ha
    exact h7 a (hperm.mem_iff.mpr ha)
  have hlen : (addrsD t ++ ctxAddrs C).length ≤ s.nextAddr :=
    nodup_length_le hnd hb
  rw [List.nodup_append] at hnd
  have hlen2 : (addrsD t).length + (ctxAddrs C).length ≤ s.nextAddr := by
    simpa [List.length_append] using hlen
  refine ⟨hnd.1, hnd.2.1, hnd.2.2, ?_, ?_, ?_, ?_⟩
  · have := depthD_le_length t
    simp only [fuelOf]
    omega
  · have := ctxLen_le_length C
    simp only [fuelOf]
    omega
  · intro hmem
    exact h8 (hperm.mem_iff.mpr (List.mem_append.mpr (Or.inl hmem)))
  · simpa [List.length_append] using hlen

/-- Nodup facts at a node. -/
theorem nodup_dnode {a : Nat} {c : Color} {l r : DTree} {k v : Int}
    (h : (addrsD (.dnode a c l k v r)).Nodup) :
    a ∉ addrsD l ∧ a ∉ addrsD r ∧ (addrsD l).Nodup ∧ (addrsD r).Nodup ∧
    ∀ x ∈ addrsD l, x ∉ addrsD r := by
  simp only [addrsD, List.nodup_cons, List.mem_append, List.nodup_append] at h
  push_neg at h
  exact ⟨h.1.1, h.1.2, h.2.1, h.2.2.1, h.2.2.2⟩

/-- The root address of a subtree is the sentinel or one of its nodes. -/
theorem rootA_mem_or_nil (nilA : Nat) (t : DTree) :
    rootA nilA t = nilA ∨ rootA nilA t ∈ addrsD t := by
  cases t <;> simp [rootA, addrsD]

/-- `allLeft` on a realized duplicate-free subtree lands on its leftmost
node (the sentinel for an empty subtree, matching `allLeft(nil) == nil`). -/
theorem allLeft_spec :
    ∀ (t : DTree) (s : TreeState) (pa fuel : Nat),
      realizes s pa t = true → (addrsD t).Nodup →
      nilOkB s = true → s.nil ≠ 0 → depthD t + 1 ≤ fuel →
      allLeft s fuel (rootA s.nil t) = some (leftmostAD s.nil t) := by
  intro t
  induction t with
  | dnil =>
    intro s pa fuel _ _ hnil h0 hf
    obtain ⟨n0, hn0, hl0, _⟩ := nilOkB_parts hnil
    match fuel, hf with
    | f + 1, _ =>
      simp only [rootA_dnil, allLeft, readN_some h0 hn0, Option.bind_eq_bind,
        Option.some_bind, hl0, readN_some h0 hn0]
      simp [leftmostAD]
  | dnode a c l k v r ihl ihr =>
    intro s pa fuel hreal hnd hnil h0 hf
    obtain ⟨ha0, hanil, hcell, hl, hr⟩ := realizes_dnode hreal
    obtain ⟨hal, har, hndl, hndr, hdisj⟩ := nodup_dnode hnd
    match fuel, hf with
    | f + 1, hf =>
      cases l with
      | dnil =>
        obtain ⟨n0, hn0, hl0, _⟩ := nilOkB_parts hnil
        simp only [rootA_dnode, allLeft, readN_some ha0 hcell,
          Option.bind_eq_bind, Option.some_bind, rootA_dnil,
          readN_some h0 hn0, hl0]
        simp [leftmostAD]
      | dnode b c2 ll k2 v2 lr =>
        obtain ⟨hb0, hbnil, hbcell, hbl, hbr⟩ := realizes_dnode hl
        have hbll : rootA s.nil ll ≠ b := by
          rcases rootA_mem_or_nil s.nil ll with h | h
          · rw [h]; exact fun he => hbnil he.symm
          · intro he
            have : b ∈ addrsD ll := he ▸ h
            have hbn : b ∉ addrsD ll := by
              have := nodup_dnode hndl
              exact this.1
            exact hbn this
        have hne2 : ¬ b = rootA s.nil ll := fun he => hbll he.symm
        have step : allLeft s (f + 1) (rootA s.nil (.dnode a c
            (.dnode b c2 ll k2 v2 lr) k v r)) =
            allLeft s f (rootA s.nil (.dnode b c2 ll k2 v2 lr)) := by
          simp only [rootA_dnode, allLeft, readN_some ha0 hcell,
            Option.bind_eq_bind, Option.some_bind, readN_some hb0 hbcell]
          rw [if_neg hne2]
        rw [step]
        have hdep : depthD (.dnode b c2 ll k2 v2 lr) + 1 ≤ f := by
          simp only [depthD] at hf ⊢
          omega
        have := ihl s a f hl hndl hnil h0 hdep
        rw [this]
        rfl

/-- The parent-climbing loop of `successor`, started at the root of a
nonempty hole subtree, returns the nearest ancestor of which the hole
lies in the left subtree, `0` (past-the-end) when there is none. -/
theorem succClimb_spec :
    ∀ (C : Ctx) (s : TreeState) (t : DTree) (fuel : Nat),
      wfAt s C t = true → t ≠ .dnil → ctxLen C + 2 ≤ fuel →
      succClimb s fuel (rootA s.nil t) = some (upLeft C) := by
  intro C
  induction C with
  | top =>
    intro s t fuel h hne hf
    obtain ⟨h1, h2, h3, h4, h5, h6, h7, h8⟩ := wfAt_parts h
    cases t with
    | dnil => exact absurd rfl hne
    | dnode a c l k v r =>
      obtain ⟨ha0, hanil, hcell, _, _⟩ := realizes_dnode h5
      obtain ⟨n0, hn0, hl0, _⟩ := nilOkB_parts h3
      match fuel, hf with
      | f + 2, _ =>
        have step1 : succClimb s (f + 2) (rootA s.nil (.dnode a c l k v r)) =
            succClimb s (f + 1) s.nil := by
          simp only [rootA_dnode, succClimb, if_neg hanil,
            readN_some ha0 hcell, Option.bind_eq_bind, Option.some_bind,
            holeParent, readN_some h1 hn0]
          rw [hl0, if_neg (fun he => hanil he.symm)]
        rw [step1]
        simp [succClimb, upLeft]
  | inL p c2 k v r up ih =>
    intro s t fuel h hne hf
    obtain ⟨h1, h2, h3, h4, h5, h6, h7, h8⟩ := wfAt_parts h
    cases t with
    | dnil => exact absurd rfl hne
    | dnode a c l k2 v2 r2 =>
      obtain ⟨ha0, hanil, hcell, _, _⟩ := realizes_dnode h5
      rw [rootA_dnode] at h4
      obtain ⟨hp0, hpnil, hpcell, _, _⟩ := realizesUp_inL h4
      match fuel, hf with
      | f + 1, _ =>
        simp only [rootA_dnode, succClimb, if_neg hanil,
          readN_some ha0 hcell, Option.bind_eq_bind, Option.some_bind,
          holeParent, readN_some hp0 hpcell]
        simp [upLeft]
  | inR p c2 l k v up ih =>
    intro s t fuel h hne hf
    obtain ⟨h1, h2, h3, h4, h5, h6, h7, h8⟩ := wfAt_parts h
    cases t with
    | dnil => exact absurd rfl hne
    | dnode a c l2 k2 v2 r2 =>
      obtain ⟨ha0, hanil, hcell, _, _⟩ := realizes_dnode h5
      rw [rootA_dnode] at h4
      obtain ⟨hp0, hpnil, hpcell, hpl, hpup⟩ := realizesUp_inR h4
      have hup : wfAt s up (.dnode p c2 l k v (.dnode a c l2 k2 v2 r2)) =
          true := wfAt_inR_iff.mp h
      have hnla : rootA s.nil l ≠ a := by
        rcases rootA_mem_or_nil s.nil l with hh | hh
        · rw [hh]; exact fun he => hanil he.symm
        · intro he
          have hmem : a ∈ addrsD l := he ▸ hh
          obtain ⟨hbnds⟩ := And.intro (wfAt_bounds hup) trivial
          have hnd2 : (addrsD (.dnode p c2 l k v
              (.dnode a c l2 k2 v2 r2))).Nodup := hbnds.1
          obtain ⟨_, _, _, _, hdisj⟩ := nodup_dnode hnd2
          exact hdisj a hmem (by simp [addrsD])
      match fuel, hf with
      | f + 1, hf =>
        have step : succClimb s (f + 1) a = succClimb s f p := by
          simp only [succClimb, if_neg hanil, readN_some ha0 hcell,
            Option.bind_eq_bind, Option.some_bind, holeParent,
            readN_some hp0 hpcell]
          rw [if_neg hnla]
        rw [rootA_dnode, step]
        have := ih s (.dnode p c2 l k v (.dnode a c l2 k2 v2 r2)) f hup
          (by simp) (by simp only [ctxLen] at hf; omega)
        rw [rootA_dnode] at this
        rw [this]
        rfl

end RBT

namespace RBT

/-- `successor` at a realized node: the leftmost node of its right
subtree when that subtree is nonempty, otherwise the nearest ancestor of
which the node lies in the left subtree (`0`, the past-the-end marker,
for the maximum node). -/
theorem successor_spec {s : TreeState} {C : Ctx} {a : Nat} {c : Color}
    {l : DTree} {k v : Int} {r : DTree}
    (h : wfAt s C (.dnode a c l k v r) = true) :
    successor s (fuelOf s) a =
      some (if r = .dnil then upLeft C else leftmostAD s.nil r) := by
  obtain ⟨h1, h2, h3, h4, h5, h6, h7, h8⟩ := wfAt_parts h
  obtain ⟨ha0, hanil, hcell, hl, hr⟩ := realizes_dnode h5
  obtain ⟨hndt, hndc, hdisj2, hdep, hctx, hnilm, hlen⟩ := wfAt_bounds h
  obtain ⟨_, _, _, hndr, _⟩ := nodup_dnode hndt
  cases r with
  | dnil =>
    have step : successor s (fuelOf s) a = succClimb s (fuelOf s) a := by
      simp only [successor, if_neg hanil, readN_some ha0 hcell,
        Option.bind_eq_bind, Option.some_bind, rootA_dnil]
      simp
    rw [step, if_pos rfl]
    have := succClimb_spec C s (.dnode a c l k v .dnil) (fuelOf s) h
      (by simp) hctx
    rw [rootA_dnode] at this
    exact this
  | dnode b c2 rl k2 v2 rr =>
    obtain ⟨hb0, hbnil, _, _, _⟩ := realizes_dnode hr
    have step : successor s (fuelOf s) a =
        allLeft s (fuelOf s) (rootA s.nil (.dnode b c2 rl k2 v2 rr)) := by
      simp only [successor, if_neg hanil, readN_some ha0 hcell,
        Option.bind_eq_bind, Option.some_bind, rootA_dnode]
      rw [if_pos hbnil]
    rw [step, if_neg (by simp)]
    have hdepr : depthD (.dnode b c2 rl k2 v2 rr) + 1 ≤ fuelOf s := by
      simp only [depthD] at hdep ⊢
      omega
    exact allLeft_spec (.dnode b c2 rl k2 v2 rr) s a (fuelOf s) hr hndr h3
      h1 hdepr

/-- Joint iteration lemma, by strong induction on the length of the
output.  First part: iterating from the leftmost node of a nonempty hole
subtree yields the subtree's in-order contents followed by everything
after the hole.  Second part: iterating from `upLeft` of the context
yields everything after the hole. -/
theorem iterList_spec :
    ∀ N : Nat,
      (∀ (t : DTree) (C : Ctx) (s : TreeState) (fuel : Nat),
        wfAt s C t = true → t ≠ .dnil →
        (inorderD t ++ afterD C).length ≤ N →
        (inorderD t ++ afterD C).length < fuel →
        iterList s fuel (leftmostAD s.nil t) =
          some (inorderD t ++ afterD C)) ∧
      (∀ (C : Ctx) (t0 : DTree) (s : TreeState) (fuel : Nat),
        wfAt s C t0 = true →
        (afterD C).length ≤ N → (afterD C).length < fuel →
        iterList s fuel (upLeft C) = some (afterD C)) := by
  intro N
  induction N using Nat.strong_induction_on with
  | _ N IH =>
    constructor
    · intro t
      induction t with
      | dnil => intro C s fuel _ hne _ _; exact absurd rfl hne
      | dnode a c l k v r ihl ihr =>
        intro C s fuel h _ hlen hfuel
        cases l with
        | dnode b c2 ll k2 v2 lr =>
          have hstart : leftmostAD s.nil
              (.dnode a c (.dnode b c2 ll k2 v2 lr) k v r) =
              leftmostAD s.nil (.dnode b c2 ll k2 v2 lr) := rfl
          have hlist : inorderD (.dnode a c (.dnode b c2 ll k2 v2 lr) k v r)
              ++ afterD C =
              inorderD (.dnode b c2 ll k2 v2 lr) ++
                afterD (.inL a c k v r C) := by
            simp [inorderD, afterD, List.append_assoc]
          rw [hstart, hlist]
          refine ihl (.inL a c k v r C) s fuel (wfAt_inL_iff.mpr h)
            (by simp) ?_ ?_
          · rw [← hlist]; exact hlen
          · rw [← hlist]; exact hfuel
        | dnil =>
          obtain ⟨h1, h2, h3, h4, h5, h6, h7, h8⟩ := wfAt_parts h
          obtain ⟨ha0, hanil, hcell, hlr, hrr⟩ := realizes_dnode h5
          have hsucc := successor_spec h
          match fuel, hfuel with
          | f + 1, hfuel =>
            have hstep : iterList s (f + 1) (leftmostAD s.nil
                (.dnode a c .dnil k v r)) =
                (successor s (fuelOf s) a).bind (fun next =>
                  (iterList s f next).bind (fun rest =>
                    some ((k, v) :: rest))) := by
              simp only [leftmostAD, iterList, if_neg ha0,
                readN_some ha0 hcell, Option.bind_eq_bind, Option.some_bind,
                Option.pure_def]
            rw [hstep, hsucc, Option.some_bind]
            cases r with
            | dnil =>
              rw [if_pos rfl]
              have hm : (afterD C).length < N := by
                simp only [inorderD, List.nil_append, List.length_cons,
                  List.length_append] at hlen
                omega
              have hrest := (IH ((afterD C).length) hm).2 C
                (.dnode a c .dnil k v .dnil) s f h (le_refl _)
                (by
                  simp only [inorderD, List.nil_append, List.length_cons,
                    List.length_append] at hfuel
                  omega)
              rw [hrest, Option.some_bind]
              simp [inorderD]
            | dnode b c2 rl k2 v2 rr =>
              rw [if_neg (by simp)]
              have hwfr : wfAt s (.inR a c .dnil k v C)
                  (.dnode b c2 rl k2 v2 rr) = true := wfAt_inR_iff.mpr h
              have hm : (inorderD (.dnode b c2 rl k2 v2 rr) ++
                  afterD (.inR a c .dnil k v C)).length < N := by
                have he : afterD (.inR a c .dnil k v C) = afterD C := rfl
                rw [he]
                simp only [inorderD, List.nil_append, List.length_cons,
                  List.length_append] at hlen ⊢
                omega
              have hrest := (IH _ hm).1
                (.dnode b c2 rl k2 v2 rr) (.inR a c .dnil k v C) s f hwfr
                (by simp) (le_refl _)
                (by
                  have he : afterD (.inR a c .dnil k v C) = afterD C := rfl
                  rw [he]
                  simp only [inorderD, List.nil_append, List.length_cons,
                    List.length_append] at hfuel ⊢
                  omega)
              rw [hrest, Option.some_bind]
              have he : afterD (.inR a c .dnil k v C) = afterD C := rfl
              rw [he]
              simp [inorderD]
    · intro C
      induction C with
      | top =>
        intro t0 s fuel _ _ hfuel
        match fuel, hfuel with
        | f + 1, _ => simp [upLeft, afterD, iterList]
      | inL a c k v r up ihup =>
        intro t0 s fuel h hlen hfuel
        obtain ⟨h1, h2, h3, h4, h5, h6, h7, h8⟩ := wfAt_parts h
        obtain ⟨ha0, hanil, hcell, hrr, hup⟩ := realizesUp_inL h4
        have hnode : wfAt s up (.dnode a c t0 k v r) = true :=
          wfAt_inL_iff.mp h
        have hsucc := successor_spec hnode
        match fuel, hfuel with
        | f + 1, hfuel =>
          have hstep : iterList s (f + 1) (upLeft (.inL a c k v r up)) =
              (successor s (fuelOf s) a).bind (fun next =>
                (iterList s f next).bind (fun rest =>
                  some ((k, v) :: rest))) := by
            simp only [upLeft, iterList, if_neg ha0, readN_some ha0 hcell,
              Option.bind_eq_bind, Option.some_bind, Option.pure_def]
          rw [hstep, hsucc, Option.some_bind]
          cases r with
          | dnil =>
            rw [if_pos rfl]
            have hm : (afterD up).length < N := by
              simp only [afterD, inorderD, List.nil_append,
                List.length_cons] at hlen
              omega
            have hrest := (IH ((afterD up).length) hm).2 up
              (.dnode a c t0 k v .dnil) s f hnode (le_refl _)
              (by
                simp only [afterD, inorderD, List.nil_append,
                  List.length_cons] at hfuel
                omega)
            rw [hrest, Option.some_bind]
            simp [afterD, inorderD]
          | dnode b c2 rl k2 v2 rr =>
            rw [if_neg (by simp)]
            have hwfr : wfAt s (.inR a c t0 k v up)
                (.dnode b c2 rl k2 v2 rr) = true := wfAt_inR_iff.mpr hnode
            have hm : (inorderD (.dnode b c2 rl k2 v2 rr) ++
                afterD (.inR a c t0 k v up)).length < N := by
              have he : afterD (.inR a c t0 k v up) = afterD up := rfl
              rw [he]
              simp only [afterD, List.length_cons, List.length_append]
                at hlen
              simp only [List.length_append]
              omega
            have hrest := (IH _ hm).1
              (.dnode b c2 rl k2 v2 rr) (.inR a c t0 k v up) s f hwfr
              (by simp) (le_refl _)
              (by
                have he : afterD (.inR a c t0 k v up) = afterD up := rfl
                rw [he]
                simp only [afterD, List.length_cons, List.length_append]
                  at hfuel
                simp only [List.length_append]
                omega)
            rw [hrest, Option.some_bind]
            have he : afterD (.inR a c t0 k v up) = afterD up := rfl
            rw [he]
            simp [afterD]
      | inR a c l k v up ihup =>
        intro t0 s fuel h hlen hfuel
        have hnode : wfAt s up (.dnode a c l k v t0) = true :=
          wfAt_inR_iff.mp h
        exact ihup (.dnode a c l k v t0) s fuel hnode hlen hfuel

end RBT

namespace RBT

/-- A well-formed state is well-formed seen from the top context. -/
theorem wfB_to_wfAt_top {s : TreeState} {t : DTree} (h : wfB s t = true) :
    wfAt s .top t = true := by
  obtain ⟨h1, h2, h3, h4, h5, h6, h7, h8, h9, h10⟩ := wfB_parts h
  refine wfAt_intro h1 h2 h3 ?_ ?_ h6 h7 h8
  · simp [realizesUp, h4]
  · simpa [holeParent] using h5

/-- Hole well-formedness is well-formedness of the plugged tree. -/
theorem wfAt_plug_iff {s : TreeState} :
    ∀ (C : Ctx) (t : DTree),
      wfAt s C t = true ↔ wfAt s .top (plugD C t) = true := by
  intro C
  induction C with
  | top => intro t; exact Iff.rfl
  | inL a c k v r up ih =>
    intro t
    rw [wfAt_inL_iff]
    exact ih _
  | inR a c l k v up ih =>
    intro t
    rw [wfAt_inR_iff]
    exact ih _

/-- `begin()` of a well-formed tree holds the leftmost node's address
(the sentinel's address when the tree is empty). -/
theorem begin_spec {s : TreeState} {t : DTree} (h : wfB s t = true) :
    RBT.begin s = some (leftmostAD s.nil t) := by
  obtain ⟨h1, h2, h3, h4, h5, h6, h7, h8, h9, h10⟩ := wfB_parts h
  unfold begin
  rw [h4]
  have hdep : depthD t + 1 ≤ fuelOf s := by
    simp only [fuelOf]; omega
  exact allLeft_spec t s s.nil (fuelOf s) h5 h6 h3 h1 hdep

/-- On a well-formed nonempty tree, walking from the leftmost node with
`size + 1` iterator steps yields exactly the in-order contents. -/
theorem iterList_of_wfB {s : TreeState} {t : DTree} (h : wfB s t = true)
    (hne : t ≠ .dnil) :
    iterList s (s.size + 1) (leftmostAD s.nil t) = some (inorderD t) := by
  have h10 := (wfB_parts h).2.2.2.2.2.2.2.2.2
  have hmain := (iterList_spec ((inorderD t ++ afterD .top).length)).1 t
    .top s (s.size + 1) (wfB_to_wfAt_top h) hne (le_refl _)
    (by
      simp only [afterD, List.append_nil]
      omega)
  simpa [afterD] using hmain

/-- Inserting a strictly larger pivot between two sorted key runs keeps
strict increase when the pivot bounds both sides. -/
theorem strictIncr_append_cons :
    ∀ (xs : List Int) (k : Int) (zs : List Int),
      strictIncr ltInt xs = true → strictIncr ltInt zs = true →
      (∀ x ∈ xs, ltInt x k = true) → (∀ z ∈ zs, ltInt k z = true) →
      strictIncr ltInt (xs ++ k :: zs) = true := by
  intro xs
  induction xs with
  | nil =>
    intro k zs _ hz _ hkz
    cases zs with
    | nil => rfl
    | cons z zs2 =>
      simp only [List.nil_append, strictIncr, Bool.and_eq_true]
      exact ⟨hkz z (List.mem_cons_self z zs2), hz⟩
  | cons x xs2 ih =>
    intro k zs hx hz hxk hkz
    cases xs2 with
    | nil =>
      simp only [List.cons_append, List.nil_append, strictIncr,
        Bool.and_eq_true]
      refine ⟨hxk x (List.mem_cons_self x []), ?_⟩
      have := ih k zs rfl hz (by intro y hy; simp at hy) hkz
      simpa using this
    | cons y ys =>
      simp only [strictIncr, Bool.and_eq_true] at hx
      have hx2 := ih k zs hx.2 hz
        (fun z hzz => hxk z (List.mem_cons_of_mem x hzz)) hkz
      simp only [List.cons_append, strictIncr, Bool.and_eq_true]
      constructor
      · exact hx.1
      · simpa using hx2

/-- BST order yields strictly increasing in-order keys. -/
theorem bstB_sorted : ∀ t : DTree, bstB t = true →
    strictIncr ltInt (keysD t) = true := by
  intro t
  induction t with
  | dnil => intro _; rfl
  | dnode a c l k v r ihl ihr =>
    intro hb
    simp only [bstB, Bool.and_eq_true] at hb
    rw [keysD_dnode]
    refine strictIncr_append_cons (keysD l) k (keysD r) (ihl hb.1.2)
      (ihr hb.2) ?_ ?_
    · intro x hx
      exact @allKeysD_mem (fun x => ltInt x k) l x hb.1.1.1 hx
    · intro z hz
      exact @allKeysD_mem (fun x => ltInt k x) r z hb.1.1.2 hz

end RBT

namespace RBT

/-- Claim C9 as amended.  For every well-formed BST-ordered tree: (1) for
every non-sentinel node — i.e. every decomposition of the tree into a
context and a node — `successor` returns the leftmost descendant of the
node's right child when that child is non-sentinel, and otherwise the
nearest ancestor in whose left subtree the node lies (`upLeft`), which is
the past-the-end marker `0` for the node holding the maximum key; (2) on
a NONEMPTY tree, forward iteration from `begin()` visits exactly the
in-order entries — whose keys are strictly increasing under the
comparator — and terminates at `end()` (the walk reaches the null
iterator after the last entry).  On the empty tree the iteration clause
fails in the source (see the claim's counterexample): `begin()` is the
sentinel and `successor` maps it to itself. -/
theorem claim_C9_amended_thm (s : TreeState) (t : DTree)
    (hwf : wfB s t = true) (hbst : bstB t = true) :
    (∀ (C : Ctx) (a : Nat) (c : Color) (l r : DTree) (k v : Int),
      plugD C (.dnode a c l k v r) = t →
      successor s (fuelOf s) a =
        some (if r = .dnil then upLeft C else leftmostAD s.nil r)) ∧
    (t ≠ .dnil →
      RBT.begin s = some (leftmostAD s.nil t) ∧
      iterList s (s.size + 1) (leftmostAD s.nil t) = some (inorderD t) ∧
      strictIncr ltInt (keysD t) = true) := by
  constructor
  · intro C a c l r k v hplug
    have hat : wfAt s C (.dnode a c l k v r) = true := by
      rw [wfAt_plug_iff, hplug]
      exact wfB_to_wfAt_top hwf
    exact successor_spec hat
  · intro hne
    exact ⟨begin_spec hwf, iterList_of_wfB hwf hne, bstB_sorted t hbst⟩

/-- Witness for the amended claim C9 at the concrete tree `sW`: the
successor of the maximum node (address 3) is the past-the-end marker,
and iterating from `begin()` yields the two entries in increasing key
order. -/
theorem claim_C9_amended_witness :
    successor sW (fuelOf sW) 3 = some 0 ∧
    RBT.begin sW = some 2 ∧
    iterList sW (RBT.size sW + 1) 2 = some [(1, 10), (2, 20)] := by
  have h := claim_C9_amended_thm sW tW (by decide) (by decide)
  have h1 := h.1 (.inR 2 .black .dnil 1 10 .top) 3 .red .dnil .dnil 2 20
    (by decide)
  have h2 := h.2 (by decide)
  refine ⟨by simpa using h1, ?_, ?_⟩
  · have := h2.1
    simpa [tW, leftmostAD] using this
  · have := h2.2.1
    simpa [tW, leftmostAD, inorderD, RBT.size] using this

end RBT

namespace RBT

/-- Elimination for a successful iteration step. -/
theorem iterList_cons_elim {s : TreeState} {fuel a : Nat} {k v : Int}
    {rest : List (Int × Int)}
    (h : iterList s (fuel + 1) a = some ((k, v) :: rest)) :
    a ≠ 0 ∧ ∃ n : NodeRec, readN s.heap a = some n ∧ n.key = k ∧
      n.val = v ∧ ∃ next, successor s (fuelOf s) a = some next ∧
      iterList s fuel next = some rest := by
  by_cases ha : a = 0
  · rw [ha] at h; simp [iterList] at h
  · refine ⟨ha, ?_⟩
    simp only [iterList, if_neg ha, Option.bind_eq_bind] at h
    cases hr : readN s.heap a with
    | none => rw [hr] at h; simp at h
    | some n =>
      rw [hr] at h
      simp only [Option.some_bind] at h
      cases hs : successor s (fuelOf s) a with
      | none => rw [hs] at h; simp at h
      | some next =>
        rw [hs] at h
        simp only [Option.some_bind] at h
        cases hi : iterList s fuel next with
        | none => rw [hi] at h; simp at h
        | some rest2 =>
          rw [hi] at h
          simp only [Option.pure_def, Option.some_bind, Option.some.injEq,
            List.cons.injEq, Prod.mk.injEq] at h
          obtain ⟨⟨hk, hv⟩, hrest⟩ := h
          exact ⟨n, rfl, hk, hv, next, rfl, by rw [hi, hrest]⟩

/-- An iteration that yields no entries started at the null iterator. -/
theorem iterList_nil_zero {s : TreeState} {fuel a : Nat}
    (h : iterList s (fuel + 1) a = some []) : a = 0 := by
  by_cases ha : a = 0
  · exact ha
  · exfalso
    simp only [iterList, if_neg ha, Option.bind_eq_bind] at h
    cases hr : readN s.heap a with
    | none => rw [hr] at h; simp at h
    | some n =>
      rw [hr] at h
      simp only [Option.some_bind] at h
      cases hs : successor s (fuelOf s) a with
      | none => rw [hs] at h; simp at h
      | some next =>
        rw [hs] at h
        simp only [Option.some_bind] at h
        cases hi : iterList s fuel next with
        | none => rw [hi] at h; simp at h
        | some rest2 => rw [hi] at h; simp at h

/-- The `std::equal` loop of `operator==` compares the two iterator
walks element-wise: if both walks produce their lists and the lists have
equal length, the loop returns whether the lists are equal. -/
theorem stdEqual_spec :
    ∀ (L1 L2 : List (Int × Int)) (s1 s2 : TreeState) (a1 a2 fuel : Nat),
      iterList s1 (L1.length + 1) a1 = some L1 →
      iterList s2 (L2.length + 1) a2 = some L2 →
      L1.length = L2.length → L1.length < fuel →
      stdEqual s1 s2 fuel a1 a2 = some (decide (L1 = L2)) := by
  intro L1
  induction L1 with
  | nil =>
    intro L2 s1 s2 a1 a2 fuel h1 h2 hlen hfuel
    have ha1 : a1 = 0 := iterList_nil_zero h1
    have hL2 : L2 = [] := List.length_eq_zero.mp hlen.symm
    subst ha1
    subst hL2
    match fuel, hfuel with
    | f + 1, _ => simp [stdEqual]
  | cons p R1 ih =>
    obtain ⟨k1, v1⟩ := p
    intro L2 s1 s2 a1 a2 fuel h1 h2 hlen hfuel
    cases L2 with
    | nil => simp at hlen
    | cons q R2 =>
      obtain ⟨k2, v2⟩ := q
      obtain ⟨ha1, n1, hr1, hk1, hv1, next1, hs1, hi1⟩ := iterList_cons_elim h1
      obtain ⟨ha2, n2, hr2, hk2, hv2, next2, hs2, hi2⟩ := iterList_cons_elim h2
      have hlen2 : R1.length = R2.length := by simpa using hlen
      match fuel, hfuel with
      | f + 1, hfuel =>
        simp only [stdEqual, if_neg ha1, hr1, hr2, Option.bind_eq_bind,
          Option.some_bind]
        by_cases heq : n1.key = n2.key ∧ n1.val = n2.val
        · rw [if_pos heq, hs1]
          simp only [Option.some_bind]
          rw [hs2]
          simp only [Option.some_bind]
          have hrec := ih R2 s1 s2 next1 next2 f hi1 hi2 hlen2
            (by simp only [List.length_cons] at hfuel; omega)
          rw [hrec]
          have hkk : k1 = k2 := by rw [← hk1, ← hk2]; exact heq.1
          have hvv : v1 = v2 := by rw [← hv1, ← hv2]; exact heq.2
          subst hkk
          subst hvv
          simp
        · rw [if_neg heq]
          have hne : ¬ ((k1, v1) = (k2, v2)) := by
            intro hcon
            simp only [Prod.mk.injEq] at hcon
            exact heq ⟨by rw [hk1, hk2, hcon.1], by rw [hv1, hv2, hcon.2]⟩
          have : ¬ ((k1, v1) :: R1 = (k2, v2) :: R2) := by
            intro hcon
            exact hne (List.head_eq_of_cons_eq hcon)
          simp [this]

/-- A nonempty subtree has at least one entry. -/
theorem inorderD_pos {t : DTree} (hne : t ≠ .dnil) :
    1 ≤ (inorderD t).length := by
  cases t with
  | dnil => exact absurd rfl hne
  | dnode a c l k v r =>
    simp only [inorderD, List.length_append, List.length_cons]
    omega

/-- Claim C8 as amended.  For well-formed BST states with the left tree
nonempty, `operator==` returns exactly the conjunction: allocators
compare equal AND sizes are equal AND the entries are pairwise equal in
iteration order.  Tree shape appears nowhere, so two differently-rotated
trees with identical contents and equal allocators compare equal.  (On
two empty trees with equal allocators the source's comparison never
returns — see the claim's counterexample.) -/
theorem claim_C8_amended_thm (s1 s2 : TreeState) (t1 t2 : DTree)
    (h1 : wfB s1 t1 = true) (h2 : wfB s2 t2 = true) (hne : t1 ≠ .dnil) :
    treeEq s1 s2 = some ((decide (s1.allocId = s2.allocId)) &&
      (decide (s1.size = s2.size)) &&
      (decide (inorderD t1 = inorderD t2))) := by
  have hp1 := wfB_parts h1
  have hp2 := wfB_parts h2
  have hsz1 : s1.size = (inorderD t1).length := hp1.2.2.2.2.2.2.2.2.2
  have hsz2 : s2.size = (inorderD t2).length := hp2.2.2.2.2.2.2.2.2.2
  by_cases hal : s1.allocId = s2.allocId
  · by_cases hsz : s1.size = s2.size
    · have ht2 : t2 ≠ .dnil := by
        intro hcon
        have hpos := inorderD_pos hne
        rw [← hsz1, hsz, hsz2, hcon] at hpos
        simp [inorderD] at hpos
      have hb1 := begin_spec h1
      have hb2 := begin_spec h2
      have hi1 := iterList_of_wfB h1 hne
      have hi2 := iterList_of_wfB h2 ht2
      have hleneq : (inorderD t1).length = (inorderD t2).length := by
        rw [← hsz1, ← hsz2]; exact hsz
      have hstd := stdEqual_spec (inorderD t1) (inorderD t2) s1 s2
        (leftmostAD s1.nil t1) (leftmostAD s2.nil t2) (s1.size + 1)
        (by rw [hsz1] at hi1; exact hi1)
        (by rw [hsz2] at hi2; exact hi2)
        hleneq (by omega)
      unfold treeEq
      rw [if_neg (by simpa using hal), if_neg (by simpa using hsz)]
      simp only [Option.bind_eq_bind]
      rw [hb1]
      simp only [Option.some_bind]
      rw [hb2]
      simp only [Option.some_bind]
      rw [hstd]
      simp [hal, hsz]
    · unfold treeEq
      rw [if_neg (by simpa using hal), if_pos (by simpa using hsz)]
      simp [hal, hsz]
  · unfold treeEq
    rw [if_pos (by simpa using hal)]
    simp [hal]

/-- Witness for the amended claim C8: the concrete two-entry tree
compares equal to itself, its allocator, size and contents all agreeing. -/
theorem claim_C8_amended_witness : treeEq sW sW = some true := by
  have h := claim_C8_amended_thm sW sW tW tW (by decide) (by decide)
    (by decide)
  simpa using h

end RBT

namespace RBT

/-- Plugging through a composite context. -/
theorem plugD_ctxAppend : ∀ (C D : Ctx) (t : DTree),
    plugD (ctxAppend C D) t = plugD D (plugD C t) := by
  intro C
  induction C with
  | top => intro D t; rfl
  | inL a c k v r up ih => intro D t; simp only [ctxAppend, plugD, ih]
  | inR a c l k v up ih => intro D t; simp only [ctxAppend, plugD, ih]

/-- Entries before the hole of a composite context. -/
theorem beforeD_ctxAppend : ∀ (C D : Ctx),
    beforeD (ctxAppend C D) = beforeD D ++ beforeD C := by
  intro C
  induction C with
  | top => intro D; simp [ctxAppend, beforeD]
  | inL a c k v r up ih => intro D; simp only [ctxAppend, beforeD, ih]
  | inR a c l k v up ih =>
    intro D
    simp only [ctxAppend, beforeD, ih, List.append_assoc]

/-- Entries after the hole of a composite context. -/
theorem afterD_ctxAppend : ∀ (C D : Ctx),
    afterD (ctxAppend C D) = afterD C ++ afterD D := by
  intro C
  induction C with
  | top => intro D; simp [ctxAppend, afterD]
  | inL a c k v r up ih =>
    intro D
    simp only [ctxAppend, afterD, ih, List.append_assoc, List.cons_append]
  | inR a c l k v up ih => intro D; simp only [ctxAppend, afterD, ih]

/-- In-order contents of a plugged tree. -/
theorem inorderD_plugD : ∀ (C : Ctx) (t : DTree),
    inorderD (plugD C t) = beforeD C ++ inorderD t ++ afterD C := by
  intro C
  induction C with
  | top => intro t; simp [plugD, beforeD, afterD]
  | inL a c k v r up ih =>
    intro t
    simp only [plugD, ih, inorderD, beforeD, afterD]
    simp [List.append_assoc]
  | inR a c l k v up ih =>
    intro t
    simp only [plugD, ih, inorderD, beforeD, afterD]
    simp [List.append_assoc]

/-- Bound predicate over all keys, membership form. -/
theorem allKeysD_iff {p : Int → Bool} : ∀ {t : DTree},
    allKeysD p t = true ↔ ∀ x ∈ keysD t, p x = true := by
  intro t
  induction t with
  | dnil => simp [allKeysD, keysD, inorderD]
  | dnode a c l k v r ihl ihr =>
    simp only [allKeysD, Bool.and_eq_true, keysD_dnode, List.mem_append,
      List.mem_cons]
    constructor
    · rintro ⟨⟨hk, hl⟩, hr⟩ x hx
      rcases hx with hx | hx | hx
      · exact ihl.mp hl x hx
      · subst hx; exact hk
      · exact ihr.mp hr x hx
    · intro h
      refine ⟨⟨h k (Or.inr (Or.inl rfl)), ihl.mpr ?_⟩, ihr.mpr ?_⟩
      · intro x hx; exact h x (Or.inl hx)
      · intro x hx; exact h x (Or.inr (Or.inr hx))

/-- A tree is BST-ordered exactly when its in-order keys are pairwise
increasing. -/
theorem bstB_iff_pairwise : ∀ t : DTree,
    bstB t = true ↔ (keysD t).Pairwise (fun a b => a < b) := by
  intro t
  induction t with
  | dnil => simp [bstB, keysD, inorderD]
  | dnode a c l k v r ihl ihr =>
    rw [keysD_dnode, List.pairwise_append]
    simp only [bstB, Bool.and_eq_true, List.pairwise_cons]
    constructor
    · rintro ⟨⟨⟨hal, har⟩, hbl⟩, hbr⟩
      have hl := ihl.mp hbl
      have hr := ihr.mp hbr
      have hkl : ∀ x ∈ keysD l, x < k := by
        intro x hx
        have := allKeysD_iff.mp hal x hx
        simpa [ltInt] using this
      have hkr : ∀ y ∈ keysD r, k < y := by
        intro y hy
        have := allKeysD_iff.mp har y hy
        simpa [ltInt] using this
      refine ⟨hl, ⟨hkr, hr⟩, ?_⟩
      intro x hx y hy
      rcases List.mem_cons.mp hy with hy | hy
      · subst hy; exact hkl x hx
      · exact lt_trans (hkl x hx) (hkr y hy)
    · rintro ⟨hl, ⟨hkr, hr⟩, hcross⟩
      refine ⟨⟨⟨?_, ?_⟩, ihl.mpr hl⟩, ihr.mpr hr⟩
      · refine allKeysD_iff.mpr ?_
        intro x hx
        have := hcross x hx k (List.mem_cons_self k _)
        simpa [ltInt] using this
      · refine allKeysD_iff.mpr ?_
        intro y hy
        have := hkr y hy
        simpa [ltInt] using this

end RBT

namespace RBT

/-- Where an absent key's descent stops, the tree decomposes as a context
whose hole is the sentinel child of the stop node on the comparison side,
and every entry before (after) the hole has key below (above) the sought
key. -/
theorem stopD_absent_anchor {k : Int} :
    ∀ {t : DTree}, bstB t = true → k ∉ keysD t →
    ∀ {a0 : Nat} {k0 v0 : Int}, stopD k t = some (a0, k0, v0) →
    ∃ C : Ctx, t = plugD C .dnil ∧
      ((ltInt k k0 = true ∧ ∃ c0 r0 C0, C = .inL a0 c0 k0 v0 r0 C0) ∨
       (ltInt k0 k = true ∧ ∃ c0 l0 C0, C = .inR a0 c0 l0 k0 v0 C0)) ∧
      (∀ x ∈ (beforeD C).map Prod.fst, x < k) ∧
      (∀ x ∈ (afterD C).map Prod.fst, k < x) := by
  intro t
  induction t with
  | dnil => intro _ _ a0 k0 v0 h; simp [stopD] at h
  | dnode b c l kb vb r ihl ihr =>
    intro hbst hmem a0 k0 v0 hstop
    rw [bstB] at hbst
    simp only [Bool.and_eq_true] at hbst
    obtain ⟨⟨⟨hal, har⟩, hbl⟩, hbr⟩ := hbst
    rw [keysD_dnode] at hmem
    simp only [List.mem_append, List.mem_cons, not_or] at hmem
    obtain ⟨hknl, hkne, hknr⟩ := hmem
    simp only [stopD] at hstop
    by_cases h1 : ltInt k kb
    · rw [if_pos h1] at hstop
      have hklt : k < kb := by simpa [ltInt] using h1
      cases hsl : stopD k l with
      | none =>
        have hldnil : l = .dnil := by
          cases l with
          | dnil => rfl
          | dnode b2 c2 l2 k2 v2 r2 => exact absurd hsl stopD_dnode_ne_none
        rw [hsl] at hstop
        injection hstop with hstop
        obtain ⟨hb, hk, hv⟩ : b = a0 ∧ kb = k0 ∧ vb = v0 := by
          refine ⟨?_, ?_, ?_⟩ <;> cases hstop <;> rfl
        subst hb; subst hk; subst hv; subst hldnil
        refine ⟨.inL b c kb vb r .top, rfl, Or.inl ⟨h1, c, r, .top, rfl⟩, ?_, ?_⟩
        · intro x hx; simp [beforeD] at hx
        · intro x hx
          simp only [afterD, inorderD, List.append_nil, List.map_cons,
            List.mem_cons, List.mem_map] at hx
          rcases hx with hx | ⟨⟨y1, y2⟩, hy, hx⟩
          · subst hx; exact hklt
          · have hyk : y1 ∈ keysD r := by
              simp only [keysD, List.mem_map]
              exact ⟨(y1, y2), hy, rfl⟩
            have := allKeysD_mem har hyk
            have hky : kb < y1 := by simpa [ltInt] using this
            subst hx
            exact lt_trans hklt hky
      | some x =>
        rw [hsl] at hstop
        injection hstop with hstop
        subst hstop
        obtain ⟨Cl, hplug, hdisj, hbef, haft⟩ := ihl hbl hknl hsl
        refine ⟨ctxAppend Cl (.inL b c kb vb r .top), ?_, ?_, ?_, ?_⟩
        · rw [plugD_ctxAppend, ← hplug]; rfl
        · rcases hdisj with ⟨hlt, c0, r0, C0, hC⟩ | ⟨hlt, c0, l0, C0, hC⟩
          · exact Or.inl ⟨hlt, c0, r0, ctxAppend C0 (.inL b c kb vb r .top),
              by rw [hC]; rfl⟩
          · exact Or.inr ⟨hlt, c0, l0, ctxAppend C0 (.inL b c kb vb r .top),
              by rw [hC]; rfl⟩
        · intro x hx
          rw [beforeD_ctxAppend] at hx
          simp only [beforeD, List.nil_append] at hx
          exact hbef x hx
        · intro x hx
          rw [afterD_ctxAppend] at hx
          simp only [afterD, beforeD, List.append_nil, List.map_append,
            List.mem_append, List.map_cons, List.mem_cons, List.mem_map] at hx
          rcases hx with hx | hx | ⟨⟨y1, y2⟩, hy, hx⟩
          · exact haft x (by simpa using hx)
          · subst hx; exact hklt
          · have hyk : y1 ∈ keysD r := by
              simp only [keysD, List.mem_map]
              exact ⟨(y1, y2), hy, rfl⟩
            have := allKeysD_mem har hyk
            have hky : kb < y1 := by simpa [ltInt] using this
            subst hx
            exact lt_trans hklt hky
    · rw [if_neg h1] at hstop
      by_cases h2 : ltInt kb k
      · rw [if_pos h2] at hstop
        have hklt : kb < k := by simpa [ltInt] using h2
        cases hsr : stopD k r with
        | none =>
          have hrdnil : r = .dnil := by
            cases r with
            | dnil => rfl
            | dnode b2 c2 l2 k2 v2 r2 => exact absurd hsr stopD_dnode_ne_none
          rw [hsr] at hstop
          injection hstop with hstop
          obtain ⟨hb, hk, hv⟩ : b = a0 ∧ kb = k0 ∧ vb = v0 := by
            refine ⟨?_, ?_, ?_⟩ <;> cases hstop <;> rfl
          subst hb; subst hk; subst hv; subst hrdnil
          refine ⟨.inR b c l kb vb .top, rfl,
            Or.inr ⟨h2, c, l, .top, rfl⟩, ?_, ?_⟩
          · intro x hx
            simp only [beforeD, List.nil_append, List.map_append,
              List.mem_append, List.map_cons, List.mem_cons, List.mem_map] at hx
            rcases hx with ⟨⟨y1, y2⟩, hy, hx⟩ | hx | hx
            · have hyk : y1 ∈ keysD l := by
                simp only [keysD, List.mem_map]
                exact ⟨(y1, y2), hy, rfl⟩
              have := allKeysD_mem hal hyk
              have hky : y1 < kb := by simpa [ltInt] using this
              subst hx
              exact lt_trans hky hklt
            · subst hx; exact hklt
            · simp at hx
          · intro x hx; simp [afterD] at hx
        | some x =>
          rw [hsr] at hstop
          injection hstop with hstop
          subst hstop
          obtain ⟨Cr, hplug, hdisj, hbef, haft⟩ := ihr hbr hknr hsr
          refine ⟨ctxAppend Cr (.inR b c l kb vb .top), ?_, ?_, ?_, ?_⟩
          · rw [plugD_ctxAppend, ← hplug]; rfl
          · rcases hdisj with ⟨hlt, c0, r0, C0, hC⟩ | ⟨hlt, c0, l0, C0, hC⟩
            · exact Or.inl ⟨hlt, c0, r0, ctxAppend C0 (.inR b c l kb vb .top),
                by rw [hC]; rfl⟩
            · exact Or.inr ⟨hlt, c0, l0, ctxAppend C0 (.inR b c l kb vb .top),
                by rw [hC]; rfl⟩
          · intro x hx
            rw [beforeD_ctxAppend] at hx
            simp only [beforeD, List.nil_append, List.map_append,
              List.mem_append, List.map_cons, List.mem_cons,
              List.mem_map] at hx
            rcases hx with (⟨⟨y1, y2⟩, hy, hx⟩ | hx | hx) | hx
            · have hyk : y1 ∈ keysD l := by
                simp only [keysD, List.mem_map]
                exact ⟨(y1, y2), hy, rfl⟩
              have := allKeysD_mem hal hyk
              have hky : y1 < kb := by simpa [ltInt] using this
              subst hx
              exact lt_trans hky hklt
            · subst hx; exact hklt
            · simp at hx
            · exact hbef x (by simpa using hx)
          · intro x hx
            rw [afterD_ctxAppend] at hx
            simp only [afterD, List.append_nil] at hx
            exact haft x hx
      · rw [if_neg h2] at hstop
        exfalso
        have : k = kb := by
          have hn1 : ¬ k < kb := by simpa [ltInt] using h1
          have hn2 : ¬ kb < k := by simpa [ltInt] using h2
          omega
        exact hkne this

end RBT

namespace RBT

/-- Realization of a subtree only depends on the heap at its own
addresses (and the sentinel address). -/
theorem realizes_mono {s s' : TreeState} (hnil : s'.nil = s.nil) :
    ∀ {t : DTree} {pa : Nat},
      (∀ a ∈ addrsD t, s'.heap a = s.heap a) →
      realizes s pa t = true → realizes s' pa t = true := by
  intro t
  induction t with
  | dnil => intro pa _ _; rfl
  | dnode a c l k v r ihl ihr =>
    intro pa hsame h
    obtain ⟨h1, h2, h3, h4, h5⟩ := realizes_dnode h
    refine realizes_dnode_intro h1 (by rw [hnil]; exact h2) ?_ ?_ ?_
    · rw [hnil, hsame a (by simp [addrsD])]
      exact h3
    · refine ihl ?_ h4
      intro b hb
      refine hsame b ?_
      simp only [addrsD, List.mem_cons, List.mem_append]
      exact Or.inr (Or.inl hb)
    · refine ihr ?_ h5
      intro b hb
      refine hsame b ?_
      simp only [addrsD, List.mem_cons, List.mem_append]
      exact Or.inr (Or.inr hb)

/-- Realization of a context only depends on the heap at the context's
addresses, the root pointer and the sentinel address. -/
theorem realizesUp_mono {s s' : TreeState} (hnil : s'.nil = s.nil)
    (hroot : s'.root = s.root) :
    ∀ {C : Ctx} {ha : Nat},
      (∀ a ∈ ctxAddrs C, s'.heap a = s.heap a) →
      realizesUp s C ha = true → realizesUp s' C ha = true := by
  intro C
  induction C with
  | top =>
    intro ha _ h
    simp only [realizesUp, decide_eq_true_eq] at h ⊢
    rw [hroot]; exact h
  | inL a c k v r up ih =>
    intro ha hsame h
    obtain ⟨h1, h2, h3, h4, h5⟩ := realizesUp_inL h
    refine realizesUp_inL_intro h1 (by rw [hnil]; exact h2) ?_ ?_ ?_
    · rw [hnil, hsame a (by simp [ctxAddrs])]
      exact h3
    · refine realizes_mono hnil ?_ h4
      intro b hb
      refine hsame b ?_
      simp only [ctxAddrs, List.mem_cons, List.mem_append]
      exact Or.inr (Or.inl hb)
    · refine ih ?_ h5
      intro b hb
      refine hsame b ?_
      simp only [ctxAddrs, List.mem_cons, List.mem_append]
      exact Or.inr (Or.inr hb)
  | inR a c l k v up ih =>
    intro ha hsame h
    obtain ⟨h1, h2, h3, h4, h5⟩ := realizesUp_inR h
    refine realizesUp_inR_intro h1 (by rw [hnil]; exact h2) ?_ ?_ ?_
    · rw [hnil, hsame a (by simp [ctxAddrs])]
      exact h3
    · refine realizes_mono hnil ?_ h4
      intro b hb
      refine hsame b ?_
      simp only [ctxAddrs, List.mem_cons, List.mem_append]
      exact Or.inr (Or.inl hb)
    · refine ih ?_ h5
      intro b hb
      refine hsame b ?_
      simp only [ctxAddrs, List.mem_cons, List.mem_append]
      exact Or.inr (Or.inr hb)

/-- Retargeting a context's hole slot at a left step: the step cell's
left pointer is rewritten, everything else is untouched. -/
theorem realizesUp_retarget_inL {s s' : TreeState} {a : Nat} {c : Color}
    {k v : Int} {r : DTree} {up : Ctx} {ha ha' : Nat}
    (h : realizesUp s (.inL a c k v r up) ha = true)
    (hnil : s'.nil = s.nil) (hroot : s'.root = s.root)
    (hcell : s'.heap a = some
      { parent := holeParent s.nil up, left := ha', right := rootA s.nil r
        color := c, key := k, val := v })
    (hrest : ∀ b, b ∈ addrsD r ∨ b ∈ ctxAddrs up → s'.heap b = s.heap b) :
    realizesUp s' (.inL a c k v r up) ha' = true := by
  obtain ⟨h1, h2, h3, h4, h5⟩ := realizesUp_inL h
  refine realizesUp_inL_intro h1 (by rw [hnil]; exact h2)
    (by rw [hnil]; exact hcell) ?_ ?_
  · exact realizes_mono hnil (fun b hb => hrest b (Or.inl hb)) h4
  · exact realizesUp_mono hnil hroot (fun b hb => hrest b (Or.inr hb)) h5

/-- Retargeting a context's hole slot at a right step. -/
theorem realizesUp_retarget_inR {s s' : TreeState} {a : Nat} {c : Color}
    {l : DTree} {k v : Int} {up : Ctx} {ha ha' : Nat}
    (h : realizesUp s (.inR a c l k v up) ha = true)
    (hnil : s'.nil = s.nil) (hroot : s'.root = s.root)
    (hcell : s'.heap a = some
      { parent := holeParent s.nil up, left := rootA s.nil l, right := ha'
        color := c, key := k, val := v })
    (hrest : ∀ b, b ∈ addrsD l ∨ b ∈ ctxAddrs up → s'.heap b = s.heap b) :
    realizesUp s' (.inR a c l k v up) ha' = true := by
  obtain ⟨h1, h2, h3, h4, h5⟩ := realizesUp_inR h
  refine realizesUp_inR_intro h1 (by rw [hnil]; exact h2)
    (by rw [hnil]; exact hcell) ?_ ?_
  · exact realizes_mono hnil (fun b hb => hrest b (Or.inl hb)) h4
  · exact realizesUp_mono hnil hroot (fun b hb => hrest b (Or.inr hb)) h5

/-- Repainting a cell black when it is already black is the identity. -/
theorem noderec_black_eta {n : NodeRec} (h : n.color = Color.black) :
    ({ n with color := Color.black } : NodeRec) = n := by
  cases n with
  | mk p l r c k v =>
    simp only at h
    subst h
    rfl

/-- Replacing the hole subtree by one with permuted addresses preserves
the address-level side conditions of the plugged tree. -/
theorem plug_props_of_perm {C : Ctx} {old new : DTree} {n nilA : Nat}
    (hperm : List.Perm (addrsD new) (addrsD old))
    (hnodup : (addrsD (plugD C old)).Nodup)
    (hbound : ∀ a ∈ addrsD (plugD C old), a < n)
    (hnil : nilA ∉ addrsD (plugD C old)) :
    (addrsD (plugD C new)).Nodup ∧ (∀ a ∈ addrsD (plugD C new), a < n) ∧
      nilA ∉ addrsD (plugD C new) := by
  have hp : List.Perm (addrsD (plugD C new)) (addrsD (plugD C old)) := by
    refine (addrsD_plugD new C).trans (List.Perm.trans ?_
      (addrsD_plugD old C).symm)
    exact hperm.append_right (ctxAddrs C)
  refine ⟨hp.nodup_iff.mpr hnodup, ?_, ?_⟩
  · intro a ha
    exact hbound a (hp.mem_iff.mp ha)
  · intro hmem
    exact hnil (hp.mem_iff.mp hmem)

end RBT
